import Mathlib

/-!
Batch sorting service (`main.go`): sequential and concurrent processors

A shallow embedding of the two HTTP handlers `processSingle` and
`processConcurrent` of `main.go`.

* Go `int` values are modelled as `Int`; the handlers only compare and move
  them, so no arithmetic on elements (and hence no overflow) occurs.
* A `[]int` slice is a header (`Slice`) pointing at a backing array in an
  explicit heap, so that in-place sorting, copying and aliasing are visible.
* The concurrent handler is a small-step machine: the launching loop, the
  goroutines, the mutex and the wait group are explicit, and a schedule is a
  list of scheduler choices.
-/

namespace MapUp

/-! ## Memory model -/

/-- Backing arrays of `[]int` slices, addressed by their position in the heap. -/
abbrev Heap := List (List Int)

/-- Header of a Go `[]int` slice: the address of its backing array and its
length (every slice in `main.go` starts at offset 0 of its backing array).
A nil slice is any header of length 0. -/
structure Slice where
  ptr : Nat
  len : Nat
deriving DecidableEq, Repr

/-- Observable steps of the sorting phase, recorded in program order. -/
inductive Event where
  | sortCall (s : Slice)
  | slotWrite (index : Nat)
deriving DecidableEq, Repr

/-- Machine state shared by everything a handler does: the heap and the
record of sorting-phase steps performed so far. -/
structure World where
  heap : Heap
  trace : List Event
deriving DecidableEq, Repr

/-- Backing array stored at address `p` (empty when nothing is allocated there). -/
def load (h : Heap) (p : Nat) : List Int := h.getD p []

/-- Elements seen through a slice header: the first `len` cells of its backing array. -/
def readSlice (h : Heap) (s : Slice) : List Int := (load h s.ptr).take s.len

/-- A header is usable in a heap when its backing array holds at least `len` cells. -/
def validSlice (h : Heap) (s : Slice) : Prop := s.len ≤ (load h s.ptr).length

instance (h : Heap) (s : Slice) : Decidable (validSlice h s) := by
  unfold validSlice; infer_instance

/-- Go `make([]int, n)`: a fresh zeroed backing array at a new address. -/
def makeInts (w : World) (n : Nat) : World × Slice :=
  ({ w with heap := w.heap ++ [List.replicate n 0] }, { ptr := w.heap.length, len := n })

/-- Go `copy(dst, src)`: overwrites the first `min (len dst) (len src)` cells of
`dst` with those of `src`. -/
def copyInts (w : World) (dst src : Slice) : World :=
  let n := min dst.len src.len
  { w with heap := w.heap.set dst.ptr ((readSlice w.heap src).take n ++ (load w.heap dst.ptr).drop n) }

/-- Insertion of one integer into an ascending list, before the first larger-or-equal element. -/
def insertAscending (x : Int) : List Int → List Int
  | [] => [x]
  | y :: ys => if x ≤ y then x :: y :: ys else y :: insertAscending x ys

/-- Value computed by the standard library's `sort.Ints` ("sorts a slice of
ints in increasing order"), here by insertion sort. The library routine is not
part of the repository; `sortedInts_unique` below shows that any routine
meeting that contract computes this same list. -/
def sortedInts : List Int → List Int
  | [] => []
  | x :: xs => insertAscending x (sortedInts xs)

/-- Go `sort.Ints(s)`: sorts the cells seen through `s` in place. -/
def sortInts (w : World) (s : Slice) : World :=
  let d := load w.heap s.ptr
  { heap := w.heap.set s.ptr (sortedInts (d.take s.len) ++ d.drop s.len),
    trace := w.trace ++ [Event.sortCall s] }

/-- Go `make([][]int, n)`: `n` slots, each holding the nil slice (`none`). -/
def makeSlots (n : Nat) : List (Option Slice) := List.replicate n none

/-- Go `sortedArrays[i] = v`: an indexed store, which faults (`none`) when the
index is out of range. -/
def storeSlot (w : World) (slots : List (Option Slice)) (i : Nat) (v : Slice) :
    Option (World × List (Option Slice)) :=
  if i < slots.length then
    some ({ w with trace := w.trace ++ [Event.slotWrite i] }, slots.set i (some v))
  else none

/-- What a JSON encoder reads from a `[][]int`: `none` for a nil slot (`null`),
otherwise the elements of the array. -/
def readOut (h : Heap) (slots : List (Option Slice)) : List (Option (List Int)) :=
  slots.map (Option.map (readSlice h))

/-- Elements of every array of a batch. -/
def readBatch (h : Heap) (toSort : List Slice) : List (List Int) :=
  toSort.map (readSlice h)

/-! ## Sequential processor (`processSingle`, lines 50-57) -/

/-- The loop `for i, arr := range inputData.ToSort` of `processSingle`, from
index `i` on; `none` is a runtime fault. -/
def processSingleLoop (i : Nat) : List Slice → World → List (Option Slice) →
    Option (World × List (Option Slice))
  | [], w, slots => some (w, slots)
  | arr :: rest, w, slots =>
    let (w1, sortedArray) := makeInts w arr.len
    let w2 := copyInts w1 sortedArray arr
    let w3 := sortInts w2 sortedArray
    match storeSlot w3 slots i sortedArray with
    | none => none
    | some (w4, slots1) => processSingleLoop (i + 1) rest w4 slots1

/-- Sorting phase of `processSingle`: allocate the output, then run the loop. -/
def processSingleSort (w : World) (toSort : List Slice) : Option (World × List (Option Slice)) :=
  processSingleLoop 0 toSort w (makeSlots toSort.length)

/-! ## Concurrent processor (`processConcurrent`, lines 93-111) -/

/-- A goroutine started at line 99 with arguments `index` and `array`. `pc`
counts the instructions it has executed: 0 `make`, 1 `copy`, 2 `sort.Ints`,
3 `mutex.Lock`, 4 the slot write, 5 `mutex.Unlock`, 6 the deferred `wg.Done`,
7 finished. `sortedArray` is its local variable (the nil slice until `make`). -/
structure Worker where
  index : Nat
  array : Slice
  pc : Nat
  sortedArray : Slice
deriving DecidableEq, Repr

/-- State of one run of the sorting phase of `processConcurrent`: the shared
world, the shared output `sortedArrays`, the part of the `range` not yet
launched with its loop index `i`, the goroutines launched so far, the
wait-group counter and whether the mutex is held. -/
structure Conc where
  world : World
  sortedArrays : List (Option Slice)
  pending : List Slice
  i : Nat
  workers : List Worker
  wg : Nat
  mutex : Bool
deriving DecidableEq, Repr

/-- One scheduler choice: the launching goroutine runs its next loop iteration
(`wg.Add(1); go func(...)`), or goroutine number `k` runs its next instruction. -/
inductive Action where
  | launch
  | step (k : Nat)
deriving DecidableEq, Repr

/-- One iteration of the launching loop (lines 97-109); nothing once the range is exhausted. -/
def launch (st : Conc) : Conc :=
  match st.pending with
  | [] => st
  | arr :: rest =>
    { st with
      pending := rest, i := st.i + 1, wg := st.wg + 1,
      workers := st.workers ++ [{ index := st.i, array := arr, pc := 0, sortedArray := { ptr := 0, len := 0 } }] }

/-- Next instruction of goroutine `k` (lines 100-107). A goroutine that waits
for the mutex, has finished or does not exist leaves the state unchanged;
`none` is a runtime fault (slot index out of range, unlock of a free mutex,
negative wait-group counter). -/
def stepWorker (st : Conc) (k : Nat) : Option Conc :=
  match st.workers[k]? with
  | none => some st
  | some g =>
    match g.pc with
    | 0 =>
      let (w1, s) := makeInts st.world g.array.len
      some { st with world := w1, workers := st.workers.set k { g with pc := 1, sortedArray := s } }
    | 1 =>
      some { st with
        world := copyInts st.world g.sortedArray g.array,
        workers := st.workers.set k { g with pc := 2 } }
    | 2 =>
      some { st with
        world := sortInts st.world g.sortedArray,
        workers := st.workers.set k { g with pc := 3 } }
    | 3 =>
      if st.mutex then some st
      else some { st with mutex := true, workers := st.workers.set k { g with pc := 4 } }
    | 4 =>
      match storeSlot st.world st.sortedArrays g.index g.sortedArray with
      | none => none
      | some (w1, slots) =>
        some { st with world := w1, sortedArrays := slots, workers := st.workers.set k { g with pc := 5 } }
    | 5 =>
      if st.mutex then some { st with mutex := false, workers := st.workers.set k { g with pc := 6 } }
      else none
    | 6 =>
      if st.wg = 0 then none
      else some { st with wg := st.wg - 1, workers := st.workers.set k { g with pc := 7 } }
    | _ => some st

/-- Effect of one scheduler choice. -/
def act (st : Conc) : Action → Option Conc
  | Action.launch => some (launch st)
  | Action.step k => stepWorker st k

/-- Effect of a schedule, choice by choice. -/
def run : List Action → Conc → Option Conc
  | [], st => some st
  | a :: rest, st =>
    match act st a with
    | none => none
    | some st1 => run rest st1

/-- State at line 96: output allocated, nothing launched, counter zero, mutex free. -/
def concInit (w : World) (toSort : List Slice) : Conc :=
  { world := w, sortedArrays := makeSlots toSort.length, pending := toSort, i := 0,
    workers := [], wg := 0, mutex := false }

/-- Outcome of the sorting phase under a schedule. -/
inductive Joined (α : Type) where
  | fault
  | blocked
  | done (a : α)
deriving DecidableEq, Repr

/-- Sorting phase of `processConcurrent` under a schedule: `wg.Wait()` (line 111)
returns once the loop has ended and the counter is zero; if the schedule stops
before that, the launching goroutine is still blocked. -/
def processConcurrentSort (w : World) (toSort : List Slice) (sched : List Action) :
    Joined (World × List (Option Slice)) :=
  match run sched (concInit w toSort) with
  | none => Joined.fault
  | some st =>
    if st.pending = [] ∧ st.wg = 0 then Joined.done (st.world, st.sortedArrays)
    else Joined.blocked

/-- Schedule that first runs the whole launching loop over `n` arrays and then
lets the goroutines run to completion one after the other in the given order. -/
def scheduleOf (n : Nat) (order : List Nat) : List Action :=
  List.replicate n Action.launch ++ order.flatMap (fun k => List.replicate 7 (Action.step k))

/-! ## HTTP handlers -/

/-- The parts of `*http.Request` the handlers use: the method, and the result
of `ioutil.ReadAll(r.Body)` (`none` when reading fails). -/
structure Request where
  Method : String
  Body : Option (List UInt8)

/-- Go `InputData` after decoding: the headers of the arrays to sort. -/
structure InputData where
  ToSort : List Slice

/-- Go `ResponseData`. -/
structure ResponseData where
  SortedArrays : List (Option Slice)
  TimeNS : Int

/-- What the client observes: an `http.Error` reply with its status code, the
200 reply whose JSON body carries `sorted_arrays` and `time_ns`, a runtime
fault, or no reply because the handler is still blocked. -/
inductive Reply where
  | error (msg : String) (code : Nat)
  | json (sorted_arrays : List (Option (List Int))) (time_ns : Int)
  | fault
  | blocked
deriving DecidableEq, Repr

/-- HTTP status code of a reply, when there is one. -/
def Reply.status : Reply → Option Nat
  | Reply.error _ code => some code
  | Reply.json _ _ => some 200
  | Reply.fault => none
  | Reply.blocked => none

/-- The `sorted_arrays` field of a reply, when there is one. -/
def Reply.sortedArrays : Reply → Option (List (Option (List Int)))
  | Reply.json out _ => some out
  | _ => none

/-- Placement of a decoded batch in memory, one fresh backing array per inner
array, as `json.Unmarshal` does when it fills `inputData.ToSort`. -/
def storeBatch (w : World) : List (List Int) → World × List Slice
  | [] => (w, [])
  | a :: rest =>
    let s : Slice := { ptr := w.heap.length, len := a.length }
    let (w1, ss) := storeBatch { w with heap := w.heap ++ [a] } rest
    (w1, s :: ss)

/-- Go `sendJSONResponse`: the JSON encoding of the response, read from memory. -/
def sendJSONResponse (w : World) (data : ResponseData) : Reply :=
  Reply.json (readOut w.heap data.SortedArrays) data.TimeNS

/-- Handler `processSingle` (lines 24-65). `unmarshal` is `json.Unmarshal` into
`InputData` (`none` on a decoding error; a JSON `null` array decodes to the
empty array) and `elapsed` is the duration measured by
`time.Since(startTime).Nanoseconds()`. Logging is left out. -/
def processSingle (unmarshal : List UInt8 → Option (List (List Int))) (elapsed : Int)
    (w : World) (r : Request) : World × Reply :=
  if r.Method ≠ "POST" then (w, Reply.error "Method not allowed" 405)
  else
    match r.Body with
    | none => (w, Reply.error "Error reading request body" 500)
    | some body =>
      match unmarshal body with
      | none => (w, Reply.error "Invalid input data" 400)
      | some batch =>
        let (w1, toSort) := storeBatch w batch
        let inputData : InputData := { ToSort := toSort }
        match processSingleSort w1 inputData.ToSort with
        | none => (w1, Reply.fault)
        | some (w2, sortedArrays) =>
          (w2, sendJSONResponse w2 { SortedArrays := sortedArrays, TimeNS := elapsed })

/-- Handler `processConcurrent` (lines 67-119), under a schedule of its goroutines. -/
def processConcurrent (unmarshal : List UInt8 → Option (List (List Int))) (elapsed : Int)
    (sched : List Action) (w : World) (r : Request) : World × Reply :=
  if r.Method ≠ "POST" then (w, Reply.error "Method not allowed" 405)
  else
    match r.Body with
    | none => (w, Reply.error "Error reading request body" 500)
    | some body =>
      match unmarshal body with
      | none => (w, Reply.error "Invalid input data" 400)
      | some batch =>
        let (w1, toSort) := storeBatch w batch
        let inputData : InputData := { ToSort := toSort }
        match processConcurrentSort w1 inputData.ToSort sched with
        | Joined.fault => (w1, Reply.fault)
        | Joined.blocked => (w1, Reply.blocked)
        | Joined.done (w2, sortedArrays) =>
          (w2, sendJSONResponse w2 { SortedArrays := sortedArrays, TimeNS := elapsed })

/-! ## Auxiliary definitions: loop effect -/

/-- Content of the backing array that one loop body `make; copy; sort.Ints`
leaves behind for the source `arr`. -/
def bodyCell (h : Heap) (arr : Slice) : List Int :=
  let z : List Int := List.replicate arr.len 0
  let d := (readSlice (h ++ [z]) arr).take (min arr.len arr.len) ++ z.drop (min arr.len arr.len)
  sortedInts (d.take arr.len) ++ d.drop arr.len

/-- Backing arrays appended by the loop of `processSingle` over `rest`, in order. -/
def loopCells (h : Heap) : List Slice → List (List Int)
  | [] => []
  | arr :: rest => bodyCell h arr :: loopCells (h ++ [bodyCell h arr]) rest

/-! ## Auxiliary definitions: invariant of the concurrent machine -/

/-- A goroutine holds the mutex between its `Lock` and its `Unlock`. -/
def inCS (g : Worker) : Bool := decide (g.pc = 4 ∨ g.pc = 5)

/-- A goroutine has not yet called `wg.Done`. -/
def running (g : Worker) : Bool := decide (g.pc < 7)

/-- Content of a goroutine's private backing array after `make` (zeros), after
`copy` (the input) and from `sort.Ints` on (the sorted input). -/
def stageCell (h0 : Heap) (g : Worker) : List Int :=
  if g.pc = 1 then List.replicate g.array.len 0
  else if g.pc = 2 then readSlice h0 g.array
  else sortedInts (readSlice h0 g.array)

/-- Invariant of every state reachable from `concInit` on the heap `h0` and the batch `toSort`. -/
structure Inv (h0 : Heap) (toSort : List Slice) (st : Conc) : Prop where
  frame : ∃ ext, st.world.heap = h0 ++ ext
  slots : st.sortedArrays.length = toSort.length
  launched : st.workers.length = st.i
  pending : st.pending = toSort.drop st.i
  args : ∀ (k : Nat) (g : Worker), st.workers[k]? = some g →
    g.index = k ∧ toSort[k]? = some g.array ∧ g.pc ≤ 7
  fresh : ∀ (k : Nat) (g : Worker), st.workers[k]? = some g → 1 ≤ g.pc →
    h0.length ≤ g.sortedArray.ptr ∧ g.sortedArray.ptr < st.world.heap.length ∧
      g.sortedArray.len = g.array.len
  distinct : ∀ (j k : Nat) (gj gk : Worker), st.workers[j]? = some gj → st.workers[k]? = some gk →
    1 ≤ gj.pc → 1 ≤ gk.pc → gj.sortedArray.ptr = gk.sortedArray.ptr → j = k
  content : (∀ s ∈ toSort, validSlice h0 s) → ∀ (k : Nat) (g : Worker),
    st.workers[k]? = some g → 1 ≤ g.pc → load st.world.heap g.sortedArray.ptr = stageCell h0 g
  written : ∀ (k : Nat) (g : Worker), st.workers[k]? = some g → 5 ≤ g.pc →
    st.sortedArrays[k]? = some (some g.sortedArray)
  counter : st.wg = st.workers.countP running
  lock : st.workers.countP inCS = if st.mutex then 1 else 0

/-! ## Auxiliary definitions: traces and idle states -/

/-- Indices of the slot writes recorded in a trace, in the order they happened. -/
def slotWrites : List Event → List Nat
  | [] => []
  | Event.slotWrite i :: rest => i :: slotWrites rest
  | Event.sortCall _ :: rest => slotWrites rest

/-- No goroutine is part-way through its body and the mutex is free. -/
def Idle (st : Conc) : Prop :=
  st.mutex = false ∧ ∀ (k : Nat) (g : Worker), st.workers[k]? = some g → g.pc = 0 ∨ g.pc = 7

/-! ## Sample inputs -/

/-- A decoder that yields the batch `[[3,1,2],[5,-1,0]]` for every body. -/
def sampleUnmarshal : List UInt8 → Option (List (List Int)) :=
  fun _ => some [[3, 1, 2], [5, -1, 0]]

/-- A decoder that yields the already sorted batch `[[1,2,3],[-1,0,5]]` for every body. -/
def sortedUnmarshal : List UInt8 → Option (List (List Int)) :=
  fun _ => some [[1, 2, 3], [-1, 0, 5]]

/-- A decoder that yields `[[3,1,2],[5,-1,0]]` for the empty body and
`[[1,2,3],[-1,0,5]]` for every other body. -/
def replayUnmarshal : List UInt8 → Option (List (List Int))
  | [] => some [[3, 1, 2], [5, -1, 0]]
  | _ :: _ => some [[1, 2, 3], [-1, 0, 5]]

/-- A decoder that yields the mixed batch `[[1,2],[2,1]]` (one array already
sorted, one not) for every body. -/
def mixedUnmarshal : List UInt8 → Option (List (List Int)) :=
  fun _ => some [[1, 2], [2, 1]]

/-- A decoder that rejects every body. -/
def rejectUnmarshal : List UInt8 → Option (List (List Int)) :=
  fun _ => none

/-- A `POST` request whose body was read (as the empty byte string). -/
def postRequest : Request := { Method := "POST", Body := some [] }

/-- A `POST` request whose body was read as the single byte `1`. -/
def postRequest1 : Request := { Method := "POST", Body := some [1] }

/-- A `POST` request whose body could not be read. -/
def brokenRequest : Request := { Method := "POST", Body := none }

/-- A `GET` request. -/
def getRequest : Request := { Method := "GET", Body := some [] }

/-- A world with nothing allocated and nothing recorded. -/
def emptyWorld : World := { heap := [], trace := [] }

/-- A world holding the two arrays `[3,1,2]` and `[5,-1,0]`. -/
def sampleWorld : World := { heap := [[3, 1, 2], [5, -1, 0]], trace := [] }

/-- Headers of the two arrays of `sampleWorld`. -/
def sampleToSort : List Slice := [{ ptr := 0, len := 3 }, { ptr := 1, len := 3 }]

/-- A world holding one empty array and the array `[2,1]`. -/
def emptyArrayWorld : World := { heap := [[], [2, 1]], trace := [] }

/-- Headers of the two arrays of `emptyArrayWorld`. -/
def emptyArrayToSort : List Slice := [{ ptr := 0, len := 0 }, { ptr := 1, len := 2 }]

/-- An interleaving of the two goroutines of a batch of two arrays in which the
second goroutine is started before the launching loop has ended and writes its
slot first. -/
def interleaved : List Action :=
  [Action.launch, Action.step 0, Action.step 0, Action.launch, Action.step 1, Action.step 1,
   Action.step 1, Action.step 1, Action.step 0, Action.step 0, Action.step 1, Action.step 1,
   Action.step 1, Action.step 0, Action.step 0, Action.step 0, Action.step 0]

/-- The world in which the schedule `interleaved` leaves `sampleWorld`. -/
def interleavedWorld : World :=
  { heap := [[3, 1, 2], [5, -1, 0], [1, 2, 3], [-1, 0, 5]],
    trace := [Event.sortCall { ptr := 3, len := 3 }, Event.sortCall { ptr := 2, len := 3 },
              Event.slotWrite 1, Event.slotWrite 0] }

/-- The output that the schedule `interleaved` produces for `sampleToSort`. -/
def interleavedSlots : List (Option Slice) :=
  [some { ptr := 2, len := 3 }, some { ptr := 3, len := 3 }]

/-- The machine state in which the schedule `interleaved` ends on `sampleToSort`. -/
def interleavedState : Conc :=
  { world := interleavedWorld, sortedArrays := interleavedSlots, pending := [], i := 2,
    workers := [{ index := 0, array := { ptr := 0, len := 3 }, pc := 7,
                  sortedArray := { ptr := 2, len := 3 } },
                { index := 1, array := { ptr := 1, len := 3 }, pc := 7,
                  sortedArray := { ptr := 3, len := 3 } }],
    wg := 0, mutex := false }

/-! ## Basic facts: sorting -/

theorem insertAscending_perm (x : Int) (l : List Int) : (insertAscending x l).Perm (x :: l) := by
  induction l with
  | nil => exact List.Perm.refl _
  | cons y ys ih =>
    unfold insertAscending
    split
    · exact List.Perm.refl _
    · exact (List.Perm.cons y ih).trans (List.Perm.swap x y ys)

theorem sortedInts_perm (l : List Int) : (sortedInts l).Perm l := by
  induction l with
  | nil => exact List.Perm.refl _
  | cons x xs ih =>
    unfold sortedInts
    exact (insertAscending_perm x _).trans (List.Perm.cons x ih)

theorem insertAscending_sorted (x : Int) (l : List Int) (h : l.Sorted (· ≤ ·)) :
    (insertAscending x l).Sorted (· ≤ ·) := by
  induction l with
  | nil => simp [insertAscending]
  | cons y ys ih =>
    unfold insertAscending
    split
    · rename_i hxy
      refine List.sorted_cons.2 ⟨?_, h⟩
      intro b hb
      rcases List.mem_cons.1 hb with rfl | hb
      · exact hxy
      · exact le_trans hxy (List.rel_of_sorted_cons h b hb)
    · rename_i hxy
      refine List.sorted_cons.2 ⟨?_, ih h.of_cons⟩
      intro b hb
      rcases List.mem_cons.1 ((insertAscending_perm x ys).subset hb) with rfl | hb
      · exact le_of_lt (not_le.1 hxy)
      · exact List.rel_of_sorted_cons h b hb

theorem sortedInts_sorted (l : List Int) : (sortedInts l).Sorted (· ≤ ·) := by
  induction l with
  | nil => simp [sortedInts]
  | cons x xs ih =>
    unfold sortedInts
    exact insertAscending_sorted x _ ih

theorem sortedInts_length (l : List Int) : (sortedInts l).length = l.length :=
  (sortedInts_perm l).length_eq

/-- Any ascending rearrangement of `l` is the list `sortedInts l`: the contract
of `sort.Ints` determines its result. -/
theorem sortedInts_unique (l r : List Int) (hs : r.Sorted (· ≤ ·)) (hp : r.Perm l) :
    r = sortedInts l :=
  List.eq_of_perm_of_sorted (hp.trans (sortedInts_perm l).symm) hs (sortedInts_sorted l)

theorem sortedInts_of_sorted (l : List Int) (hs : l.Sorted (· ≤ ·)) : sortedInts l = l :=
  (sortedInts_unique l l hs (List.Perm.refl l)).symm

/-! ## Basic facts: memory -/

theorem load_append_left (h x : Heap) (p : Nat) (hp : p < h.length) :
    load (h ++ x) p = load h p := by
  simp [load, List.getD_eq_getElem?_getD, List.getElem?_append_left hp]

theorem load_append_fresh (h : Heap) (c : List Int) : load (h ++ [c]) h.length = c := by
  simp [load, List.getD_eq_getElem?_getD]

theorem load_of_le (h : Heap) (p : Nat) (hp : h.length ≤ p) : load h p = [] := by
  simp [load, List.getD_eq_getElem?_getD, List.getElem?_eq_none hp]

theorem load_set_same (h : Heap) (p : Nat) (c : List Int) (hp : p < h.length) :
    load (h.set p c) p = c := by
  simp [load, List.getD_eq_getElem?_getD, List.getElem?_set, hp]

theorem load_set_other (h : Heap) (p q : Nat) (c : List Int) (hpq : p ≠ q) :
    load (h.set p c) q = load h q := by
  simp [load, List.getD_eq_getElem?_getD, List.getElem?_set, hpq]

theorem set_append_fresh (h : Heap) (c d : List Int) : (h ++ [c]).set h.length d = h ++ [d] := by
  induction h with
  | nil => rfl
  | cons a t ih => simp [List.set, ih]

theorem readSlice_length (h : Heap) (s : Slice) (hv : validSlice h s) :
    (readSlice h s).length = s.len := by
  unfold validSlice at hv
  simp [readSlice, hv]

theorem readSlice_append (h x : Heap) (s : Slice) (hv : validSlice h s) :
    readSlice (h ++ x) s = readSlice h s := by
  unfold readSlice
  by_cases hp : s.ptr < h.length
  · rw [load_append_left h x s.ptr hp]
  · have h0 : s.len = 0 := by
      unfold validSlice at hv
      rw [load_of_le h s.ptr (not_lt.1 hp)] at hv
      simpa using hv
    simp [h0]

theorem validSlice_append (h x : Heap) (s : Slice) (hv : validSlice h s) :
    validSlice (h ++ x) s := by
  unfold validSlice at *
  by_cases hp : s.ptr < h.length
  · rw [load_append_left h x s.ptr hp]; exact hv
  · rw [load_of_le h s.ptr (not_lt.1 hp)] at hv
    have h0 : s.len = 0 := by simpa using hv
    omega

/-- One loop body `make; copy; sort.Ints` appends exactly one backing array and
records one sort call. -/
theorem body_effect (w : World) (arr : Slice) :
    sortInts (copyInts (makeInts w arr.len).1 (makeInts w arr.len).2 arr) (makeInts w arr.len).2 =
      { heap := w.heap ++ [bodyCell w.heap arr],
        trace := w.trace ++ [Event.sortCall { ptr := w.heap.length, len := arr.len }] } := by
  simp only [sortInts, copyInts, makeInts, set_append_fresh, load_append_fresh, bodyCell]

theorem bodyCell_valid (h : Heap) (arr : Slice) (hv : validSlice h arr) :
    bodyCell h arr = sortedInts (readSlice h arr) := by
  have hl := readSlice_length h arr hv
  simp only [bodyCell, readSlice_append h _ arr hv, min_self]
  have h1 : (readSlice h arr).take arr.len = readSlice h arr := by
    rw [List.take_of_length_le (le_of_eq hl)]
  simp [h1, hl]

theorem loopCells_length (rest : List Slice) : ∀ h : Heap, (loopCells h rest).length = rest.length := by
  induction rest with
  | nil => intro h; rfl
  | cons a r ih => intro h; simp [loopCells, ih]

theorem loopCells_valid (rest : List Slice) :
    ∀ h : Heap, (∀ s ∈ rest, validSlice h s) →
      loopCells h rest = rest.map (fun s => sortedInts (readSlice h s)) := by
  induction rest with
  | nil => intro h _; rfl
  | cons a r ih =>
    intro h hv
    have hr : ∀ s ∈ r, validSlice (h ++ [bodyCell h a]) s :=
      fun s hs => validSlice_append h _ s (hv s (List.mem_cons_of_mem a hs))
    rw [loopCells, List.map_cons, ih _ hr, bodyCell_valid h a (hv a (List.mem_cons_self a r))]
    congr 1
    apply List.map_congr_left
    intro s hs
    rw [readSlice_append h _ s (hv s (List.mem_cons_of_mem a hs))]

theorem processSingleLoop_cons (i : Nat) (arr : Slice) (rest : List Slice) (w : World)
    (slots : List (Option Slice)) :
    processSingleLoop i (arr :: rest) w slots =
      match storeSlot (sortInts (copyInts (makeInts w arr.len).1 (makeInts w arr.len).2 arr)
          (makeInts w arr.len).2) slots i (makeInts w arr.len).2 with
      | none => none
      | some (w4, slots1) => processSingleLoop (i + 1) rest w4 slots1 := rfl

/-- Effect of the loop of `processSingle` from index `i`, for any memory: it
does not fault when the remaining indices fit the output, it only appends
backing arrays, and it fills exactly the slots `i, i+1, ...`. -/
theorem processSingleLoop_spec (rest : List Slice) :
    ∀ (i : Nat) (w : World) (slots : List (Option Slice)), i + rest.length ≤ slots.length →
      ∃ w1 slots1, processSingleLoop i rest w slots = some (w1, slots1) ∧
        w1.heap = w.heap ++ loopCells w.heap rest ∧
        slots1.length = slots.length ∧
        (∀ j, j < i ∨ i + rest.length ≤ j → slots1[j]? = slots[j]?) ∧
        (∀ j s, rest[j]? = some s →
          slots1[i + j]? = some (some { ptr := w.heap.length + j, len := s.len })) := by
  induction rest with
  | nil =>
    intro i w slots _
    refine ⟨w, slots, rfl, by simp [loopCells], rfl, fun _ _ => rfl, ?_⟩
    intro j s hj
    simp at hj
  | cons arr r ih =>
    intro i w slots hi
    have hlt : i < slots.length := by simp at hi; omega
    rw [processSingleLoop_cons, body_effect]
    simp only [storeSlot, hlt, if_true]
    obtain ⟨w1, slots1, hrun, hheap, hlen, hold, hnew⟩ :=
      ih (i + 1) { heap := w.heap ++ [bodyCell w.heap arr],
                   trace := w.trace ++ [Event.sortCall { ptr := w.heap.length, len := arr.len }] ++
                     [Event.slotWrite i] }
        (slots.set i (some (makeInts w arr.len).2)) (by simp at hi ⊢; omega)
    refine ⟨w1, slots1, hrun, ?_, ?_, ?_, ?_⟩
    · rw [hheap]; simp [loopCells]
    · rw [hlen]; simp
    · intro j hj
      rw [hold j (by simp at hj ⊢; omega)]
      rw [List.getElem?_set_ne (by simp at hj; omega)]
    · intro j s hj
      cases j with
      | zero =>
        simp at hj
        subst hj
        rw [Nat.add_zero, hold i (Or.inl (Nat.lt_succ_self i))]
        simp [makeInts, hlt]
      | succ j =>
        simp at hj
        have := hnew j s hj
        simp at this
        rw [show i + (j + 1) = i + 1 + j by omega, this]
        simp; omega

theorem load_append_right (h x : Heap) (j : Nat) : load (h ++ x) (h.length + j) = x.getD j [] := by
  simp [load, List.getD_eq_getElem?_getD, List.getElem?_append_right]

/-- Reading the output: when slot `j` holds a header whose cells are the sorted
cells of input `j`, the JSON view of the output is the map of sorting over the input. -/
theorem readOut_eq (h0 h1 : Heap) (toSort : List Slice) (slots : List (Option Slice))
    (hlen : slots.length = toSort.length)
    (hslot : ∀ (j : Nat) (s : Slice), toSort[j]? = some s →
      ∃ sa, slots[j]? = some (some sa) ∧ readSlice h1 sa = sortedInts (readSlice h0 s)) :
    readOut h1 slots = toSort.map (fun s => some (sortedInts (readSlice h0 s))) := by
  apply List.ext_getElem?
  intro j
  by_cases hj : j < toSort.length
  · obtain ⟨sa, hsa, hrd⟩ := hslot j toSort[j] (List.getElem?_eq_getElem hj)
    simp [readOut, List.getElem?_map, hsa, hrd, List.getElem?_eq_getElem hj]
  · have h1 : toSort[j]? = none := List.getElem?_eq_none (not_lt.1 hj)
    have h2 : slots[j]? = none := List.getElem?_eq_none (by rw [hlen]; exact not_lt.1 hj)
    simp [readOut, List.getElem?_map, h1, h2]

/-- The sequential sorting phase on any memory: it returns, it only appends
backing arrays to the heap, and slot `j` holds a fresh header of the length of input `j`. -/
theorem processSingleSort_spec (w : World) (toSort : List Slice) :
    ∃ w1 slots, processSingleSort w toSort = some (w1, slots) ∧
      w1.heap = w.heap ++ loopCells w.heap toSort ∧
      slots.length = toSort.length ∧
      (∀ (j : Nat) (s : Slice), toSort[j]? = some s →
        slots[j]? = some (some { ptr := w.heap.length + j, len := s.len })) := by
  obtain ⟨w1, slots, hrun, hheap, hlen, _, hnew⟩ :=
    processSingleLoop_spec toSort 0 w (makeSlots toSort.length) (by simp [makeSlots])
  refine ⟨w1, slots, hrun, hheap, by simpa [makeSlots] using hlen, ?_⟩
  intro j s hj
  simpa using hnew j s hj

/-- The sequential sorting phase on usable input: the JSON view of its output is
the map of sorting over the input arrays. -/
theorem processSingleSort_readOut (w : World) (toSort : List Slice)
    (hv : ∀ s ∈ toSort, validSlice w.heap s) :
    ∃ w1 slots, processSingleSort w toSort = some (w1, slots) ∧
      readOut w1.heap slots = toSort.map (fun s => some (sortedInts (readSlice w.heap s))) := by
  obtain ⟨w1, slots, hrun, hheap, hlen, hnew⟩ := processSingleSort_spec w toSort
  refine ⟨w1, slots, hrun, readOut_eq w.heap w1.heap toSort slots hlen ?_⟩
  intro j s hj
  refine ⟨_, hnew j s hj, ?_⟩
  have hmem : s ∈ toSort := List.mem_iff_getElem?.2 ⟨j, hj⟩
  have hl := readSlice_length w.heap s (hv s hmem)
  rw [hheap, loopCells_valid toSort w.heap hv]
  simp only [readSlice, load_append_right]
  simp only [List.getD_eq_getElem?_getD, List.getElem?_map, hj, Option.map_some', Option.getD_some]
  apply List.take_of_length_le
  rw [sortedInts_length]
  exact le_of_eq hl

/-- Placement of a decoded batch: the arrays are appended to the heap, nothing
is recorded, and header `j` addresses array `j` with its length. -/
theorem storeBatch_spec (batch : List (List Int)) :
    ∀ w : World, (storeBatch w batch).1 = { w with heap := w.heap ++ batch } ∧
      (storeBatch w batch).2.length = batch.length ∧
      (∀ (j : Nat) (a : List Int), batch[j]? = some a →
        (storeBatch w batch).2[j]? = some { ptr := w.heap.length + j, len := a.length }) := by
  induction batch with
  | nil => intro w; simp [storeBatch]
  | cons a rest ih =>
    intro w
    obtain ⟨h1, h2, h3⟩ := ih { w with heap := w.heap ++ [a] }
    refine ⟨?_, ?_, ?_⟩
    · simp [storeBatch, h1]
    · simp [storeBatch, h2]
    · intro j b hj
      cases j with
      | zero => simp at hj; subst hj; simp [storeBatch]
      | succ j =>
        simp at hj
        have := h3 j b hj
        simp [storeBatch] at this ⊢
        rw [this]; simp; omega

theorem storeBatch_read (batch : List (List Int)) (w : World) :
    (∀ s ∈ (storeBatch w batch).2, validSlice (storeBatch w batch).1.heap s) ∧
      readBatch (storeBatch w batch).1.heap (storeBatch w batch).2 = batch := by
  obtain ⟨h1, h2, h3⟩ := storeBatch_spec batch w
  have key : ∀ (j : Nat) (s : Slice), (storeBatch w batch).2[j]? = some s →
      ∃ a, batch[j]? = some a ∧ s.len = a.length ∧ load (storeBatch w batch).1.heap s.ptr = a := by
    intro j s hj
    have hjlt : j < batch.length := by
      rw [← h2]; exact (List.getElem?_eq_some_iff.1 hj).1
    have hb : batch[j]? = some batch[j] := List.getElem?_eq_getElem hjlt
    have := h3 j _ hb
    rw [hj] at this
    injection this with this
    subst this
    refine ⟨batch[j], hb, rfl, ?_⟩
    rw [h1]
    simp [load_append_right, List.getD_eq_getElem?_getD, hb]
  constructor
  · intro s hs
    obtain ⟨j, hj⟩ := List.mem_iff_getElem?.1 hs
    obtain ⟨a, _, hl, hld⟩ := key j s hj
    unfold validSlice
    rw [hld, hl]
  · apply List.ext_getElem?
    intro j
    simp only [readBatch, List.getElem?_map]
    cases hj : (storeBatch w batch).2[j]? with
    | none =>
      have : batch.length ≤ j := by
        rw [← h2]; exact List.getElem?_eq_none_iff.1 hj
      simp [List.getElem?_eq_none this]
    | some s =>
      obtain ⟨a, ha, hl, hld⟩ := key j s hj
      simp [readSlice, hld, hl, ha]

/-! ## The concurrent machine: invariant -/

theorem getElem?_set_cases {α : Type} {l : List α} {k j : Nat} {x g : α}
    (h : (l.set k x)[j]? = some g) : (j = k ∧ g = x) ∨ (j ≠ k ∧ l[j]? = some g) := by
  rw [List.getElem?_set] at h
  by_cases hkj : k = j
  · left
    rw [if_pos hkj] at h
    split at h
    · exact ⟨hkj.symm, by injection h with h; exact h.symm⟩
    · cases h
  · right
    rw [if_neg hkj] at h
    exact ⟨fun e => hkj e.symm, h⟩

theorem countP_update {α : Type} (p : α → Bool) (l : List α) (k : Nat) (g x : α)
    (hk : l[k]? = some g) :
    (l.set k x).countP p + (if p g then 1 else 0) = l.countP p + (if p x then 1 else 0) := by
  induction l generalizing k with
  | nil => simp at hk
  | cons a t ih =>
    cases k with
    | zero =>
      simp at hk
      subst hk
      simp [List.countP_cons]
      omega
    | succ k =>
      simp at hk
      have := ih k hk
      simp [List.countP_cons]
      omega

theorem countP_pos_of_getElem? {α : Type} (p : α → Bool) (l : List α) (k : Nat) (g : α)
    (hk : l[k]? = some g) (hp : p g = true) : 0 < l.countP p :=
  List.countP_pos_iff.2 ⟨g, List.mem_iff_getElem?.2 ⟨k, hk⟩, hp⟩

/-- Generic preservation: goroutine `k` replaces its record `g` by `g1`, the
world by `W`, the output by `S`, the counter by `c` and the mutex by `m`. -/
theorem inv_update {h0 : Heap} {toSort : List Slice} {st : Conc} (hI : Inv h0 toSort st)
    {k : Nat} {g : Worker} (hk : st.workers[k]? = some g)
    (g1 : Worker) (W : World) (S : List (Option Slice)) (c : Nat) (m : Bool)
    (hidx : g1.index = g.index) (harr : g1.array = g.array) (hpc : g1.pc ≤ 7)
    (hframe : ∃ ext, W.heap = h0 ++ ext)
    (hS : S.length = toSort.length)
    (hgrow : st.world.heap.length ≤ W.heap.length)
    (hload : ∀ (j : Nat) (gj : Worker), j ≠ k → st.workers[j]? = some gj → 1 ≤ gj.pc →
      load W.heap gj.sortedArray.ptr = load st.world.heap gj.sortedArray.ptr)
    (hfresh : 1 ≤ g1.pc → h0.length ≤ g1.sortedArray.ptr ∧ g1.sortedArray.ptr < W.heap.length ∧
      g1.sortedArray.len = g1.array.len)
    (hdist : 1 ≤ g1.pc → ∀ (j : Nat) (gj : Worker), j ≠ k → st.workers[j]? = some gj → 1 ≤ gj.pc →
      gj.sortedArray.ptr ≠ g1.sortedArray.ptr)
    (hcontent : (∀ s ∈ toSort, validSlice h0 s) → 1 ≤ g1.pc →
      load W.heap g1.sortedArray.ptr = stageCell h0 g1)
    (hwr : ∀ (j : Nat) (gj : Worker), j ≠ k → st.workers[j]? = some gj → 5 ≤ gj.pc →
      S[j]? = some (some gj.sortedArray))
    (hwr1 : 5 ≤ g1.pc → S[k]? = some (some g1.sortedArray))
    (hc : c + (if running g then 1 else 0) = st.wg + (if running g1 then 1 else 0))
    (hm : (if m then 1 else 0) + (if inCS g then 1 else 0) =
      (if st.mutex then 1 else 0) + (if inCS g1 then 1 else 0)) :
    Inv h0 toSort { st with world := W, sortedArrays := S, workers := st.workers.set k g1,
                            wg := c, mutex := m } where
  frame := hframe
  slots := hS
  launched := by simpa using hI.launched
  pending := hI.pending
  args := by
    intro j gj hj
    rcases getElem?_set_cases hj with ⟨rfl, rfl⟩ | ⟨_, hj⟩
    · obtain ⟨h1, h2, _⟩ := hI.args _ g hk
      exact ⟨hidx.trans h1, harr ▸ h2, hpc⟩
    · exact hI.args j gj hj
  fresh := by
    intro j gj hj h1
    rcases getElem?_set_cases hj with ⟨rfl, rfl⟩ | ⟨_, hj⟩
    · exact hfresh h1
    · obtain ⟨a, b, c⟩ := hI.fresh j gj hj h1
      exact ⟨a, lt_of_lt_of_le b hgrow, c⟩
  distinct := by
    intro i j gi gj hi hj h1 h2 he
    rcases getElem?_set_cases hi with ⟨hik, hgi⟩ | ⟨hik, hi1⟩
    · rcases getElem?_set_cases hj with ⟨hjk, _⟩ | ⟨hjk, hj1⟩
      · rw [hik, hjk]
      · rw [hgi] at h1 he
        exact absurd he.symm (hdist h1 j gj hjk hj1 h2)
    · rcases getElem?_set_cases hj with ⟨_, hgj⟩ | ⟨hjk, hj1⟩
      · rw [hgj] at h2 he
        exact absurd he (hdist h2 i gi hik hi1 h1)
      · exact hI.distinct i j gi gj hi1 hj1 h1 h2 he
  content := by
    intro hv j gj hj h1
    rcases getElem?_set_cases hj with ⟨rfl, rfl⟩ | ⟨hjk, hj⟩
    · exact hcontent hv h1
    · show load W.heap gj.sortedArray.ptr = _
      rw [hload j gj hjk hj h1]
      exact hI.content hv j gj hj h1
  written := by
    intro j gj hj h5
    rcases getElem?_set_cases hj with ⟨rfl, rfl⟩ | ⟨hjk, hj⟩
    · exact hwr1 h5
    · exact hwr j gj hjk hj h5
  counter := by
    have h1 := countP_update running st.workers k g g1 hk
    have h2 := hI.counter
    show c = (st.workers.set k g1).countP running
    omega
  lock := by
    have h1 := countP_update inCS st.workers k g g1 hk
    have h2 := hI.lock
    show (st.workers.set k g1).countP inCS = if m then 1 else 0
    omega

/-! ## The concurrent machine: one instruction at a time -/

theorem stepWorker_none (st : Conc) (k : Nat) (hk : st.workers[k]? = none) :
    stepWorker st k = some st := by
  simp only [stepWorker, hk]

theorem stepWorker_make (st : Conc) (k : Nat) (g : Worker) (hk : st.workers[k]? = some g)
    (hpc : g.pc = 0) :
    stepWorker st k = some { st with
      world := { st.world with heap := st.world.heap ++ [List.replicate g.array.len 0] },
      workers := st.workers.set k
        { g with pc := 1, sortedArray := { ptr := st.world.heap.length, len := g.array.len } } } := by
  simp only [stepWorker, hk, hpc, makeInts]

theorem stepWorker_copy (st : Conc) (k : Nat) (g : Worker) (hk : st.workers[k]? = some g)
    (hpc : g.pc = 1) :
    stepWorker st k = some { st with
      world := copyInts st.world g.sortedArray g.array,
      workers := st.workers.set k { g with pc := 2 } } := by
  simp only [stepWorker, hk, hpc]

theorem stepWorker_sort (st : Conc) (k : Nat) (g : Worker) (hk : st.workers[k]? = some g)
    (hpc : g.pc = 2) :
    stepWorker st k = some { st with
      world := sortInts st.world g.sortedArray,
      workers := st.workers.set k { g with pc := 3 } } := by
  simp only [stepWorker, hk, hpc]

theorem stepWorker_lock (st : Conc) (k : Nat) (g : Worker) (hk : st.workers[k]? = some g)
    (hpc : g.pc = 3) :
    stepWorker st k =
      if st.mutex then some st
      else some { st with mutex := true, workers := st.workers.set k { g with pc := 4 } } := by
  simp only [stepWorker, hk, hpc]

theorem stepWorker_write (st : Conc) (k : Nat) (g : Worker) (hk : st.workers[k]? = some g)
    (hpc : g.pc = 4) (hlt : g.index < st.sortedArrays.length) :
    stepWorker st k = some { st with
      world := { st.world with trace := st.world.trace ++ [Event.slotWrite g.index] },
      sortedArrays := st.sortedArrays.set g.index (some g.sortedArray),
      workers := st.workers.set k { g with pc := 5 } } := by
  simp only [stepWorker, hk, hpc, storeSlot, hlt, if_true]

theorem stepWorker_unlock (st : Conc) (k : Nat) (g : Worker) (hk : st.workers[k]? = some g)
    (hpc : g.pc = 5) (hm : st.mutex = true) :
    stepWorker st k = some { st with
      mutex := false, workers := st.workers.set k { g with pc := 6 } } := by
  simp only [stepWorker, hk, hpc, hm, if_true]

theorem stepWorker_done (st : Conc) (k : Nat) (g : Worker) (hk : st.workers[k]? = some g)
    (hpc : g.pc = 6) (hwg : st.wg ≠ 0) :
    stepWorker st k = some { st with
      wg := st.wg - 1, workers := st.workers.set k { g with pc := 7 } } := by
  simp only [stepWorker, hk, hpc, hwg, if_false]

theorem stepWorker_finished (st : Conc) (k : Nat) (g : Worker) (hk : st.workers[k]? = some g)
    (hpc : 7 ≤ g.pc) : stepWorker st k = some st := by
  obtain ⟨n, hn⟩ : ∃ n, g.pc = n + 7 := ⟨g.pc - 7, by omega⟩
  simp only [stepWorker, hk, hn]

/-! ## The concurrent machine: the invariant is preserved and nothing faults -/

theorem inv_stepWorker {h0 : Heap} {toSort : List Slice} {st : Conc} (hI : Inv h0 toSort st)
    (k : Nat) : ∃ st1, stepWorker st k = some st1 ∧ Inv h0 toSort st1 := by
  cases hk : st.workers[k]? with
  | none => exact ⟨st, stepWorker_none st k hk, hI⟩
  | some g =>
    obtain ⟨hidx, harg, hpc7⟩ := hI.args k g hk
    have hklt : k < toSort.length := by
      by_contra hge
      rw [List.getElem?_eq_none (not_lt.1 hge)] at harg
      cases harg
    have hmem : g.array ∈ toSort := List.mem_iff_getElem?.2 ⟨k, harg⟩
    obtain ⟨ext, hext⟩ := hI.frame
    have hcase : g.pc = 0 ∨ g.pc = 1 ∨ g.pc = 2 ∨ g.pc = 3 ∨ g.pc = 4 ∨ g.pc = 5 ∨ g.pc = 6 ∨
        g.pc = 7 := by omega
    rcases hcase with hpc | hpc | hpc | hpc | hpc | hpc | hpc | hpc
    · -- `make`
      refine ⟨_, stepWorker_make st k g hk hpc, ?_⟩
      refine inv_update hI hk _ _ _ _ _ rfl rfl (by simp)
        ⟨ext ++ [List.replicate g.array.len 0], by simp [hext]⟩ hI.slots
        (by simp) ?_ ?_ ?_ ?_ ?_ ?_ ?_ ?_
      · intro j gj _ hj h1
        exact load_append_left _ _ _ (hI.fresh j gj hj h1).2.1
      · intro _
        refine ⟨?_, ?_, rfl⟩
        · simp [hext]
        · simp
      · intro _ j gj _ hj h1
        have := (hI.fresh j gj hj h1).2.1
        simp only []
        omega
      · intro _ _
        simp [load_append_fresh, stageCell]
      · intro j gj _ hj h5
        exact hI.written j gj hj h5
      · intro h5
        simp at h5
      · simp [running, hpc]
      · simp [inCS, hpc]
    · -- `copy`
      obtain ⟨hf1, hf2, hf3⟩ := hI.fresh k g hk (by omega)
      refine ⟨_, stepWorker_copy st k g hk hpc, ?_⟩
      refine inv_update hI hk _ _ _ _ _ rfl rfl (by simp)
        ⟨ext.set (g.sortedArray.ptr - h0.length) _, by
          show (st.world.heap.set _ _) = _
          rw [hext, List.set_append_right _ _ hf1]⟩ hI.slots
        (by simp [copyInts]) ?_ ?_ ?_ ?_ ?_ ?_ ?_ ?_
      · intro j gj hjk hj h1
        apply load_set_other
        intro e
        exact hjk (hI.distinct j k gj g hj hk h1 (by omega) e.symm)
      · intro _
        exact ⟨hf1, by simpa [copyInts] using hf2, hf3⟩
      · intro _ j gj hjk hj h1 e
        exact hjk (hI.distinct j k gj g hj hk h1 (by omega) e)
      · intro hv _
        have hc := hI.content hv k g hk (by omega)
        have hva := hv g.array hmem
        show load (st.world.heap.set _ _) _ = _
        rw [load_set_same _ _ _ hf2, hc, hext, readSlice_append h0 ext g.array hva, hf3]
        have hl := readSlice_length h0 g.array hva
        simp [stageCell, hpc, hl]
      · intro j gj _ hj h5
        exact hI.written j gj hj h5
      · intro h5
        simp at h5
      · simp [running, hpc]
      · simp [inCS, hpc]
    · -- `sort.Ints`
      obtain ⟨hf1, hf2, hf3⟩ := hI.fresh k g hk (by omega)
      refine ⟨_, stepWorker_sort st k g hk hpc, ?_⟩
      refine inv_update hI hk _ _ _ _ _ rfl rfl (by simp)
        ⟨ext.set (g.sortedArray.ptr - h0.length) _, by
          show (st.world.heap.set _ _) = _
          rw [hext, List.set_append_right _ _ hf1]⟩ hI.slots
        (by simp [sortInts]) ?_ ?_ ?_ ?_ ?_ ?_ ?_ ?_
      · intro j gj hjk hj h1
        apply load_set_other
        intro e
        exact hjk (hI.distinct j k gj g hj hk h1 (by omega) e.symm)
      · intro _
        exact ⟨hf1, by simpa [sortInts] using hf2, hf3⟩
      · intro _ j gj hjk hj h1 e
        exact hjk (hI.distinct j k gj g hj hk h1 (by omega) e)
      · intro hv _
        have hc := hI.content hv k g hk (by omega)
        have hva := hv g.array hmem
        show load (st.world.heap.set _ _) _ = _
        rw [load_set_same _ _ _ hf2, hc, hf3]
        have hl := readSlice_length h0 g.array hva
        have ht : (readSlice h0 g.array).take g.array.len = readSlice h0 g.array :=
          List.take_of_length_le (le_of_eq hl)
        have hd : (readSlice h0 g.array).drop g.array.len = [] :=
          List.drop_of_length_le (le_of_eq hl)
        simp [stageCell, hpc, ht, hd]
      · intro j gj _ hj h5
        exact hI.written j gj hj h5
      · intro h5
        simp at h5
      · simp [running, hpc]
      · simp [inCS, hpc]
    · -- `mutex.Lock`
      rw [stepWorker_lock st k g hk hpc]
      cases hm : st.mutex with
      | true => exact ⟨st, by simp, hI⟩
      | false =>
        obtain ⟨hf1, hf2, hf3⟩ := hI.fresh k g hk (by omega)
        refine ⟨_, by simp; rfl, ?_⟩
        refine inv_update hI hk _ _ _ _ _ rfl rfl (by simp) ⟨ext, hext⟩ hI.slots
          (le_refl _) ?_ ?_ ?_ ?_ ?_ ?_ ?_ ?_
        · intro j gj _ _ _; rfl
        · intro _; exact ⟨hf1, hf2, hf3⟩
        · intro _ j gj hjk hj h1 e
          exact hjk (hI.distinct j k gj g hj hk h1 (by omega) e)
        · intro hv _
          have hc := hI.content hv k g hk (by omega)
          rw [hc]
          simp [stageCell, hpc]
        · intro j gj _ hj h5
          exact hI.written j gj hj h5
        · intro h5
          simp at h5
        · simp [running, hpc]
        · simp [inCS, hpc, hm]
    · -- the slot write
      obtain ⟨hf1, hf2, hf3⟩ := hI.fresh k g hk (by omega)
      have hlt : g.index < st.sortedArrays.length := by rw [hidx, hI.slots]; exact hklt
      refine ⟨_, stepWorker_write st k g hk hpc hlt, ?_⟩
      refine inv_update hI hk _ _ _ _ _ rfl rfl (by simp) ⟨ext, hext⟩
        (by simp [hI.slots]) (le_refl _) ?_ ?_ ?_ ?_ ?_ ?_ ?_ ?_
      · intro j gj _ _ _; rfl
      · intro _; exact ⟨hf1, hf2, hf3⟩
      · intro _ j gj hjk hj h1 e
        exact hjk (hI.distinct j k gj g hj hk h1 (by omega) e)
      · intro hv _
        have hc := hI.content hv k g hk (by omega)
        show load st.world.heap _ = _
        rw [hc]
        simp [stageCell, hpc]
      · intro j gj hjk hj h5
        rw [hidx, List.getElem?_set_ne (fun e => hjk e.symm)]
        exact hI.written j gj hj h5
      · intro _
        rw [hidx]
        simp [List.getElem?_set, hI.slots, hklt]
      · simp [running, hpc]
      · simp [inCS, hpc]
    · -- `mutex.Unlock`
      obtain ⟨hf1, hf2, hf3⟩ := hI.fresh k g hk (by omega)
      have hm : st.mutex = true := by
        have hpos := countP_pos_of_getElem? inCS st.workers k g hk (by simp [inCS, hpc])
        have hl := hI.lock
        cases hmx : st.mutex with
        | true => rfl
        | false => rw [hmx, if_neg Bool.false_ne_true] at hl; omega
      refine ⟨_, stepWorker_unlock st k g hk hpc hm, ?_⟩
      refine inv_update hI hk _ _ _ _ _ rfl rfl (by simp) ⟨ext, hext⟩ hI.slots
        (le_refl _) ?_ ?_ ?_ ?_ ?_ ?_ ?_ ?_
      · intro j gj _ _ _; rfl
      · intro _; exact ⟨hf1, hf2, hf3⟩
      · intro _ j gj hjk hj h1 e
        exact hjk (hI.distinct j k gj g hj hk h1 (by omega) e)
      · intro hv _
        have hc := hI.content hv k g hk (by omega)
        rw [hc]
        simp [stageCell, hpc]
      · intro j gj _ hj h5
        exact hI.written j gj hj h5
      · intro _
        exact hI.written k g hk (by omega)
      · simp [running, hpc]
      · simp [inCS, hpc, hm]
    · -- the deferred `wg.Done`
      obtain ⟨hf1, hf2, hf3⟩ := hI.fresh k g hk (by omega)
      have hwg : st.wg ≠ 0 := by
        have hpos := countP_pos_of_getElem? running st.workers k g hk (by simp [running, hpc])
        have hc := hI.counter
        omega
      refine ⟨_, stepWorker_done st k g hk hpc hwg, ?_⟩
      refine inv_update hI hk _ _ _ _ _ rfl rfl (by simp) ⟨ext, hext⟩ hI.slots
        (le_refl _) ?_ ?_ ?_ ?_ ?_ ?_ ?_ ?_
      · intro j gj _ _ _; rfl
      · intro _; exact ⟨hf1, hf2, hf3⟩
      · intro _ j gj hjk hj h1 e
        exact hjk (hI.distinct j k gj g hj hk h1 (by omega) e)
      · intro hv _
        have hc := hI.content hv k g hk (by omega)
        rw [hc]
        simp [stageCell, hpc]
      · intro j gj _ hj h5
        exact hI.written j gj hj h5
      · intro _
        exact hI.written k g hk (by omega)
      · simp [running, hpc]
        omega
      · simp [inCS, hpc]
    · exact ⟨st, stepWorker_finished st k g hk (by omega), hI⟩

theorem getElem?_snoc_cases {α : Type} {l : List α} {x g : α} {k : Nat}
    (h : (l ++ [x])[k]? = some g) : l[k]? = some g ∨ (k = l.length ∧ g = x) := by
  by_cases hk : k < l.length
  · left
    rwa [List.getElem?_append_left hk] at h
  · right
    rw [List.getElem?_append_right (not_lt.1 hk)] at h
    cases hd : k - l.length with
    | zero =>
      rw [hd] at h
      simp at h
      exact ⟨by omega, h.symm⟩
    | succ n =>
      rw [hd] at h
      simp at h

theorem inv_launch {h0 : Heap} {toSort : List Slice} {st : Conc} (hI : Inv h0 toSort st) :
    Inv h0 toSort (launch st) := by
  cases hp : st.pending with
  | nil =>
    have : launch st = st := by simp only [launch, hp]
    rw [this]
    exact hI
  | cons arr rest =>
    have hl : launch st = { st with
        pending := rest, i := st.i + 1, wg := st.wg + 1,
        workers := st.workers ++
          [{ index := st.i, array := arr, pc := 0, sortedArray := { ptr := 0, len := 0 } }] } := by
      simp only [launch, hp]
    rw [hl]
    have hdrop : toSort.drop st.i = arr :: rest := by rw [← hI.pending, hp]
    have hi : toSort[st.i]? = some arr := by
      have := List.getElem?_drop toSort st.i 0
      rw [hdrop] at this
      simpa using this.symm
    have hrest : rest = toSort.drop (st.i + 1) := by
      rw [← List.tail_drop, hdrop]
      rfl
    refine
      { frame := hI.frame, slots := hI.slots, launched := by simp [hI.launched], pending := hrest,
        args := ?_, fresh := ?_, distinct := ?_, content := ?_, written := ?_,
        counter := ?_, lock := ?_ }
    · intro k g hk
      rcases getElem?_snoc_cases hk with hk | ⟨hkl, hg⟩
      · exact hI.args k g hk
      · rw [hg, hkl, hI.launched]
        exact ⟨rfl, hi, Nat.zero_le 7⟩
    · intro k g hk h1
      rcases getElem?_snoc_cases hk with hk | ⟨_, hg⟩
      · exact hI.fresh k g hk h1
      · rw [hg] at h1; simp at h1
    · intro j k gj gk hj hk h1 h2 he
      rcases getElem?_snoc_cases hj with hj | ⟨_, hg⟩
      · rcases getElem?_snoc_cases hk with hk | ⟨_, hg⟩
        · exact hI.distinct j k gj gk hj hk h1 h2 he
        · rw [hg] at h2; simp at h2
      · rw [hg] at h1; simp at h1
    · intro hv k g hk h1
      rcases getElem?_snoc_cases hk with hk | ⟨_, hg⟩
      · exact hI.content hv k g hk h1
      · rw [hg] at h1; simp at h1
    · intro k g hk h5
      rcases getElem?_snoc_cases hk with hk | ⟨_, hg⟩
      · exact hI.written k g hk h5
      · rw [hg] at h5; simp at h5
    · simp [List.countP_append, running, hI.counter]
    · simp [List.countP_append, inCS, hI.lock]

theorem inv_init (w : World) (toSort : List Slice) : Inv w.heap toSort (concInit w toSort) where
  frame := ⟨[], by simp [concInit]⟩
  slots := by simp [concInit, makeSlots]
  launched := rfl
  pending := rfl
  args := by intro k g hk; simp [concInit] at hk
  fresh := by intro k g hk; simp [concInit] at hk
  distinct := by intro j k gj gk hj; simp [concInit] at hj
  content := by intro _ k g hk; simp [concInit] at hk
  written := by intro k g hk; simp [concInit] at hk
  counter := rfl
  lock := rfl

theorem inv_act {h0 : Heap} {toSort : List Slice} {st : Conc} (hI : Inv h0 toSort st)
    (a : Action) : ∃ st1, act st a = some st1 ∧ Inv h0 toSort st1 := by
  cases a with
  | launch => exact ⟨_, rfl, inv_launch hI⟩
  | step k => exact inv_stepWorker hI k

/-- No schedule makes the concurrent machine fault, and every state it reaches
satisfies the invariant. -/
theorem inv_run {h0 : Heap} {toSort : List Slice} (sched : List Action) :
    ∀ st : Conc, Inv h0 toSort st → ∃ st1, run sched st = some st1 ∧ Inv h0 toSort st1 := by
  induction sched with
  | nil => intro st hI; exact ⟨st, rfl, hI⟩
  | cons a rest ih =>
    intro st hI
    obtain ⟨st1, h1, hI1⟩ := inv_act hI a
    obtain ⟨st2, h2, hI2⟩ := ih st1 hI1
    exact ⟨st2, by simp only [run, h1, h2], hI2⟩

/-- At the join (loop ended, counter zero) every goroutine has finished. -/
theorem inv_finished {h0 : Heap} {toSort : List Slice} {st : Conc} (hI : Inv h0 toSort st)
    (hp : st.pending = []) (hwg : st.wg = 0) (j : Nat) (s : Slice) (hj : toSort[j]? = some s) :
    ∃ g, st.workers[j]? = some g ∧ g.array = s ∧ g.pc = 7 := by
  have hjlt : j < toSort.length := by
    by_contra hge
    rw [List.getElem?_eq_none (not_lt.1 hge)] at hj
    cases hj
  have hlen : toSort.length ≤ st.workers.length := by
    rw [hI.launched]
    exact List.drop_eq_nil_iff.1 (hI.pending ▸ hp)
  have hjw : j < st.workers.length := lt_of_lt_of_le hjlt hlen
  have hg : st.workers[j]? = some st.workers[j] := List.getElem?_eq_getElem hjw
  obtain ⟨_, harg, hpc7⟩ := hI.args j _ hg
  refine ⟨st.workers[j], hg, ?_, ?_⟩
  · rw [hj] at harg
    injection harg with harg
    exact harg.symm
  · have hc : st.workers.countP running = 0 := by rw [← hI.counter, hwg]
    have hnr := List.countP_eq_zero.1 hc st.workers[j] (List.getElem_mem hjw)
    simp [running] at hnr
    omega

/-- At the join every slot holds the header written by its goroutine, of the
length of the matching input. -/
theorem inv_joined_slots {h0 : Heap} {toSort : List Slice} {st : Conc} (hI : Inv h0 toSort st)
    (hp : st.pending = []) (hwg : st.wg = 0) (j : Nat) (s : Slice) (hj : toSort[j]? = some s) :
    ∃ sa, st.sortedArrays[j]? = some (some sa) ∧ sa.len = s.len ∧
      ((∀ t ∈ toSort, validSlice h0 t) →
        readSlice st.world.heap sa = sortedInts (readSlice h0 s)) := by
  obtain ⟨g, hg, harr, hpc⟩ := inv_finished hI hp hwg j s hj
  obtain ⟨_, _, hlen⟩ := hI.fresh j g hg (by omega)
  refine ⟨g.sortedArray, hI.written j g hg (by omega), by rw [hlen, harr], ?_⟩
  intro hv
  have hc := hI.content hv j g hg (by omega)
  have hl := readSlice_length h0 s (hv s (List.mem_iff_getElem?.2 ⟨j, hj⟩))
  unfold readSlice at hl ⊢
  rw [hc]
  simp only [stageCell, hpc, harr]
  simp only [Nat.reduceEqDiff, if_false, hlen, harr]
  apply List.take_of_length_le
  rw [sortedInts_length]
  exact le_of_eq hl

/-! ## The concurrent machine: schedules that reach the join -/

theorem slotWrites_append (a b : List Event) :
    slotWrites (a ++ b) = slotWrites a ++ slotWrites b := by
  induction a with
  | nil => rfl
  | cons e rest ih =>
    cases e with
    | sortCall s => simpa [slotWrites] using ih
    | slotWrite i => simpa [slotWrites] using ih

theorem run_append (a b : List Action) :
    ∀ st : Conc, run (a ++ b) st = (run a st).bind (run b) := by
  induction a with
  | nil => intro st; rfl
  | cons x rest ih =>
    intro st
    simp only [List.cons_append, run]
    cases act st x with
    | none => rfl
    | some st1 => exact ih st1

/-- One instruction of a goroutine that is not waiting: it advances by one,
leaves the other goroutines and the launching loop alone, and takes or
releases the mutex exactly at `Lock` and `Unlock`. -/
theorem step_progress {h0 : Heap} {toSort : List Slice} {st : Conc} (hI : Inv h0 toSort st)
    (k : Nat) (g : Worker) (hk : st.workers[k]? = some g) (hpc : g.pc < 7)
    (hm : g.pc = 3 → st.mutex = false) :
    ∃ st1 g1, stepWorker st k = some st1 ∧ Inv h0 toSort st1 ∧
      st1.workers[k]? = some g1 ∧ g1.pc = g.pc + 1 ∧
      (∀ j, j ≠ k → st1.workers[j]? = st.workers[j]?) ∧
      st1.workers.length = st.workers.length ∧
      st1.pending = st.pending ∧
      st1.mutex = (if g.pc = 3 then true else if g.pc = 5 then false else st.mutex) ∧
      slotWrites st1.world.trace =
        slotWrites st.world.trace ++ (if g.pc = 4 then [g.index] else []) := by
  obtain ⟨st1, h1, hI1⟩ := inv_stepWorker hI k
  have hklt : k < st.workers.length := by
    by_contra hge
    rw [List.getElem?_eq_none (not_lt.1 hge)] at hk
    cases hk
  have hset : ∀ x : Worker, (st.workers.set k x)[k]? = some x := by
    intro x; simp [List.getElem?_set, hklt]
  have hoth : ∀ (x : Worker) (j : Nat), j ≠ k → (st.workers.set k x)[j]? = st.workers[j]? := by
    intro x j hjk; exact List.getElem?_set_ne (fun e => hjk e.symm)
  have hcase : g.pc = 0 ∨ g.pc = 1 ∨ g.pc = 2 ∨ g.pc = 3 ∨ g.pc = 4 ∨ g.pc = 5 ∨ g.pc = 6 := by
    omega
  rcases hcase with hc | hc | hc | hc | hc | hc | hc
  · rw [stepWorker_make st k g hk hc] at h1
    injection h1 with h1
    subst h1
    exact ⟨_, _, stepWorker_make st k g hk hc, hI1, hset _, by simp [hc], hoth _,
      by simp, rfl, by simp [hc],
      by simp [hc, copyInts, sortInts, slotWrites_append, slotWrites]⟩
  · rw [stepWorker_copy st k g hk hc] at h1
    injection h1 with h1
    subst h1
    exact ⟨_, _, stepWorker_copy st k g hk hc, hI1, hset _, by simp [hc], hoth _,
      by simp, rfl, by simp [hc],
      by simp [hc, copyInts, sortInts, slotWrites_append, slotWrites]⟩
  · rw [stepWorker_sort st k g hk hc] at h1
    injection h1 with h1
    subst h1
    exact ⟨_, _, stepWorker_sort st k g hk hc, hI1, hset _, by simp [hc], hoth _,
      by simp, rfl, by simp [hc],
      by simp [hc, copyInts, sortInts, slotWrites_append, slotWrites]⟩
  · have hs := stepWorker_lock st k g hk hc
    rw [hm hc] at hs
    simp only [Bool.false_eq_true, if_false] at hs
    rw [hs] at h1
    injection h1 with h1
    subst h1
    exact ⟨_, _, hs, hI1, hset _, by simp [hc], hoth _, by simp, rfl, by simp [hc],
      by simp [hc, copyInts, sortInts, slotWrites_append, slotWrites]⟩
  · have hlt : g.index < st.sortedArrays.length := by
      by_contra hge
      simp only [stepWorker, hk, hc, storeSlot, hge, if_false] at h1
      cases h1
    rw [stepWorker_write st k g hk hc hlt] at h1
    injection h1 with h1
    subst h1
    exact ⟨_, _, stepWorker_write st k g hk hc hlt, hI1, hset _, by simp [hc], hoth _,
      by simp, rfl, by simp [hc],
      by simp [hc, copyInts, sortInts, slotWrites_append, slotWrites]⟩
  · have hmx : st.mutex = true := by
      cases hmx : st.mutex with
      | true => rfl
      | false =>
        simp only [stepWorker, hk, hc, hmx, Bool.false_eq_true, if_false] at h1
        cases h1
    rw [stepWorker_unlock st k g hk hc hmx] at h1
    injection h1 with h1
    subst h1
    exact ⟨_, _, stepWorker_unlock st k g hk hc hmx, hI1, hset _, by simp [hc], hoth _,
      by simp, rfl, by simp [hc],
      by simp [hc, copyInts, sortInts, slotWrites_append, slotWrites]⟩
  · have hwg : st.wg ≠ 0 := by
      intro h0
      simp only [stepWorker, hk, hc, h0, if_true] at h1
      cases h1
    rw [stepWorker_done st k g hk hc hwg] at h1
    injection h1 with h1
    subst h1
    exact ⟨_, _, stepWorker_done st k g hk hc hwg, hI1, hset _, by simp [hc], hoth _,
      by simp, rfl, by simp [hc],
      by simp [hc, copyInts, sortInts, slotWrites_append, slotWrites]⟩

/-- Consecutive instructions of goroutine `k`, started when it is not waiting
for a mutex held by someone else. -/
theorem run_steps {h0 : Heap} {toSort : List Slice} (k : Nat) (n : Nat) :
    ∀ (st : Conc) (g : Worker), Inv h0 toSort st → st.workers[k]? = some g → g.pc + n ≤ 7 →
      ((g.pc ≤ 3 ∨ 6 ≤ g.pc) → st.mutex = false) →
      ∃ st1 g1, run (List.replicate n (Action.step k)) st = some st1 ∧ Inv h0 toSort st1 ∧
        st1.workers[k]? = some g1 ∧ g1.pc = g.pc + n ∧
        (∀ j, j ≠ k → st1.workers[j]? = st.workers[j]?) ∧
        st1.workers.length = st.workers.length ∧
        st1.pending = st.pending ∧
        ((g1.pc ≤ 3 ∨ 6 ≤ g1.pc) → st1.mutex = false) ∧
        slotWrites st1.world.trace =
          slotWrites st.world.trace ++ (if g.pc ≤ 4 ∧ 4 < g.pc + n then [k] else []) := by
  induction n with
  | zero =>
    intro st g hI hk _ hm
    refine ⟨st, g, rfl, hI, hk, rfl, fun _ _ => rfl, rfl, rfl, hm, ?_⟩
    rw [if_neg (by omega)]
    simp
  | succ n ih =>
    intro st g hI hk hle hm
    obtain ⟨st1, g1, hs, hI1, hk1, hpc1, ho1, hl1, hp1, hm1, ht1⟩ :=
      step_progress hI k g hk (by omega) (fun h => hm (Or.inl (by omega)))
    have hm1' : (g1.pc ≤ 3 ∨ 6 ≤ g1.pc) → st1.mutex = false := by
      intro h
      rw [hm1]
      by_cases h3 : g.pc = 3
      · omega
      · by_cases h5 : g.pc = 5
        · simp [h5]
        · simp only [h3, h5, if_false]
          apply hm
          omega
    obtain ⟨st2, g2, hr, hI2, hk2, hpc2, ho2, hl2, hp2, hm2, ht2⟩ :=
      ih st1 g1 hI1 hk1 (by omega) hm1'
    refine ⟨st2, g2, ?_, hI2, hk2, by omega, fun j hj => (ho2 j hj).trans (ho1 j hj),
      hl2.trans hl1, hp2.trans hp1, hm2, ?_⟩
    · simp only [List.replicate_succ, run, act, hs, hr]
    · rw [ht2, ht1, (hI.args k g hk).1, List.append_assoc]
      congr 1
      by_cases h4 : g.pc = 4
      · rw [if_pos h4, if_neg (by omega), if_pos (by omega)]
        rfl
      · rw [if_neg h4]
        by_cases hc : g.pc ≤ 4 ∧ 4 < g.pc + (n + 1)
        · rw [if_pos hc, if_pos (by omega)]
          rfl
        · rw [if_neg hc, if_neg (by omega)]
          rfl

theorem run_noop (k : Nat) (st : Conc) (h : stepWorker st k = some st) (n : Nat) :
    run (List.replicate n (Action.step k)) st = some st := by
  induction n with
  | zero => rfl
  | succ n ih => simp only [List.replicate_succ, run, act, h, ih]

/-- From an idle state, seven instructions of goroutine `k` run its whole body:
if it had not started, it performs exactly one slot write, the one of index `k`. -/
theorem run_finish {h0 : Heap} {toSort : List Slice} (k : Nat) (st : Conc)
    (hI : Inv h0 toSort st) (hid : Idle st) :
    ∃ st1, run (List.replicate 7 (Action.step k)) st = some st1 ∧ Inv h0 toSort st1 ∧ Idle st1 ∧
      st1.pending = st.pending ∧ st1.workers.length = st.workers.length ∧
      (∀ (j : Nat) (g1 : Worker), st1.workers[j]? = some g1 →
        (j = k → g1.pc = 7) ∧ (∀ g, st.workers[j]? = some g → g.pc = 7 → g1.pc = 7)) ∧
      (∀ j, j ≠ k → st1.workers[j]? = st.workers[j]?) ∧
      (∀ g, st.workers[k]? = some g → g.pc = 0 →
        slotWrites st1.world.trace = slotWrites st.world.trace ++ [k]) := by
  have hsame : ∀ (j : Nat) (g1 : Worker), st.workers[j]? = some g1 →
      ∀ g, st.workers[j]? = some g → g.pc = 7 → g1.pc = 7 := by
    intro j g1 h1 g h2 h7
    rw [h1] at h2
    injection h2 with h2
    rw [h2]; exact h7
  cases hk : st.workers[k]? with
  | none =>
    refine ⟨st, run_noop k st (stepWorker_none st k hk) 7, hI, hid, rfl, rfl, ?_,
      fun _ _ => rfl, ?_⟩
    · intro j g1 hj
      refine ⟨?_, hsame j g1 hj⟩
      intro hjk
      rw [hjk, hk] at hj
      cases hj
    · intro g hg
      cases hg
  | some g =>
    rcases hid.2 k g hk with h0pc | h7pc
    · obtain ⟨st1, g1, hr, hI1, hk1, hpc1, ho1, hl1, hp1, hm1, ht1⟩ :=
        run_steps k 7 st g hI hk (by omega) (fun _ => hid.1)
      refine ⟨st1, hr, hI1, ⟨hm1 (Or.inr (by omega)), ?_⟩, hp1, hl1, ?_, ho1, ?_⟩
      · intro j x hj
        by_cases hjk : j = k
        · rw [hjk, hk1] at hj
          injection hj with hj
          right; rw [← hj]; omega
        · rw [ho1 j hjk] at hj
          exact hid.2 j x hj
      · intro j x hj
        by_cases hjk : j = k
        · rw [hjk, hk1] at hj
          injection hj with hj
          have : x.pc = 7 := by rw [← hj]; omega
          exact ⟨fun _ => this, fun _ _ _ => this⟩
        · rw [ho1 j hjk] at hj
          exact ⟨fun e => absurd e hjk, hsame j x hj⟩
      · intro _ _ _
        rw [ht1, if_pos (by omega)]
    · refine ⟨st, run_noop k st (stepWorker_finished st k g hk (by omega)) 7, hI, hid, rfl, rfl,
        ?_, fun _ _ => rfl, ?_⟩
      · intro j g1 hj
        refine ⟨?_, hsame j g1 hj⟩
        intro hjk
        rw [hjk, hk] at hj
        injection hj with hj
        rw [← hj]; exact h7pc
      · intro x hx hx0
        injection hx with hx
        rw [← hx] at hx0
        omega

theorem idle_launch (st : Conc) (hid : Idle st) : Idle (launch st) := by
  cases hp : st.pending with
  | nil =>
    have : launch st = st := by simp only [launch, hp]
    rw [this]; exact hid
  | cons arr rest =>
    refine ⟨by simp only [launch, hp]; exact hid.1, ?_⟩
    intro k g hk
    simp only [launch, hp] at hk
    rcases getElem?_snoc_cases hk with hk | ⟨_, hg⟩
    · exact hid.2 k g hk
    · left; rw [hg]

theorem launch_pending (st : Conc) : (launch st).pending = st.pending.drop 1 := by
  cases hp : st.pending with
  | nil => simp only [launch, hp]; simp [hp]
  | cons arr rest => simp only [launch, hp]; simp

theorem launch_world (st : Conc) : (launch st).world = st.world := by
  cases hp : st.pending with
  | nil => simp only [launch, hp]
  | cons arr rest => simp only [launch, hp]

theorem launch_unstarted (st : Conc)
    (h : ∀ (k : Nat) (g : Worker), st.workers[k]? = some g → g.pc = 0) :
    ∀ (k : Nat) (g : Worker), (launch st).workers[k]? = some g → g.pc = 0 := by
  intro k g hk
  cases hp : st.pending with
  | nil =>
    simp only [launch, hp] at hk
    exact h k g hk
  | cons arr rest =>
    simp only [launch, hp] at hk
    rcases getElem?_snoc_cases hk with hk | ⟨_, hg⟩
    · exact h k g hk
    · rw [hg]

/-- The launching loop run `m` times in a row: it starts goroutines and touches
neither the memory nor the goroutines already started. -/
theorem run_launches {h0 : Heap} {toSort : List Slice} (m : Nat) :
    ∀ st : Conc, Inv h0 toSort st → Idle st →
      ∃ st1, run (List.replicate m Action.launch) st = some st1 ∧ Inv h0 toSort st1 ∧ Idle st1 ∧
        st1.pending = st.pending.drop m ∧ st1.world = st.world ∧
        ((∀ (k : Nat) (g : Worker), st.workers[k]? = some g → g.pc = 0) →
          ∀ (k : Nat) (g : Worker), st1.workers[k]? = some g → g.pc = 0) := by
  induction m with
  | zero => intro st hI hid; exact ⟨st, rfl, hI, hid, by simp, rfl, fun h => h⟩
  | succ m ih =>
    intro st hI hid
    obtain ⟨st1, hr, hI1, hid1, hp1, hw1, hu1⟩ :=
      ih (launch st) (inv_launch hI) (idle_launch st hid)
    refine ⟨st1, by simp only [List.replicate_succ, run, act, hr], hI1, hid1, ?_,
      hw1.trans (launch_world st), fun h => hu1 (launch_unstarted st h)⟩
    rw [hp1, launch_pending, List.drop_drop]
    congr 1
    omega

/-- Goroutines run to completion one after the other, in the given order. -/
theorem run_order {h0 : Heap} {toSort : List Slice} (order : List Nat) :
    ∀ st : Conc, Inv h0 toSort st → Idle st →
      ∃ st1, run (order.flatMap (fun k => List.replicate 7 (Action.step k))) st = some st1 ∧
        Inv h0 toSort st1 ∧ Idle st1 ∧ st1.pending = st.pending ∧
        st1.workers.length = st.workers.length ∧
        (∀ (j : Nat) (g1 : Worker), st1.workers[j]? = some g1 →
          (j ∈ order → g1.pc = 7) ∧ (∀ g, st.workers[j]? = some g → g.pc = 7 → g1.pc = 7)) ∧
        (∀ j, j ∉ order → st1.workers[j]? = st.workers[j]?) ∧
        (order.Nodup → (∀ k ∈ order, ∃ g, st.workers[k]? = some g ∧ g.pc = 0) →
          slotWrites st1.world.trace = slotWrites st.world.trace ++ order) := by
  induction order with
  | nil =>
    intro st hI hid
    refine ⟨st, rfl, hI, hid, rfl, rfl, ?_, fun _ _ => rfl, fun _ _ => by simp⟩
    intro j g1 hj
    refine ⟨fun h => by simp at h, ?_⟩
    intro g hg h7
    rw [hj] at hg
    injection hg with hg
    rw [hg]; exact h7
  | cons k rest ih =>
    intro st hI hid
    obtain ⟨st1, hr1, hI1, hid1, hp1, hl1, hw1, ho1, ht1⟩ := run_finish k st hI hid
    obtain ⟨st2, hr2, hI2, hid2, hp2, hl2, hw2, ho2, ht2⟩ := ih st1 hI1 hid1
    refine ⟨st2, ?_, hI2, hid2, hp2.trans hp1, hl2.trans hl1, ?_, ?_, ?_⟩
    · rw [List.flatMap_cons, run_append, hr1]
      exact hr2
    · intro j g2 hj
      have hjlt : j < st1.workers.length := by
        rw [← hl2]
        by_contra hge
        rw [List.getElem?_eq_none (not_lt.1 hge)] at hj
        cases hj
      have hg1 : st1.workers[j]? = some st1.workers[j] := List.getElem?_eq_getElem hjlt
      obtain ⟨ha, hb⟩ := hw1 j _ hg1
      obtain ⟨hc, hd⟩ := hw2 j g2 hj
      constructor
      · intro hmem
        rcases List.mem_cons.1 hmem with hjk | hjr
        · exact hd _ hg1 (ha hjk)
        · exact hc hjr
      · intro g hg h7
        exact hd _ hg1 (hb g hg h7)
    · intro j hj
      have hjk : j ≠ k := fun e => hj (e ▸ List.mem_cons_self k rest)
      have hjr : j ∉ rest := fun e => hj (List.mem_cons_of_mem k e)
      rw [ho2 j hjr, ho1 j hjk]
    · intro hnd hall
      obtain ⟨g, hg, hg0⟩ := hall k (List.mem_cons_self k rest)
      have hnd' := List.nodup_cons.1 hnd
      rw [ht2 hnd'.2 ?_, ht1 g hg hg0, List.append_assoc]
      · rfl
      · intro j hj
        obtain ⟨gj, hgj, hgj0⟩ := hall j (List.mem_cons_of_mem k hj)
        have hjk : j ≠ k := fun e => hnd'.1 (e ▸ hj)
        exact ⟨gj, by rw [ho1 j hjk]; exact hgj, hgj0⟩

theorem idle_init (w : World) (toSort : List Slice) : Idle (concInit w toSort) :=
  ⟨rfl, by intro k g hk; simp [concInit] at hk⟩

/-- The join is reached: under the schedule that launches everything and then
completes the goroutines in any order that covers all indices, `wg.Wait()`
returns; when the order lists each index once, the slot writes happen in that order. -/
theorem processConcurrentSort_returns (w : World) (toSort : List Slice) (order : List Nat)
    (hcov : ∀ j, j < toSort.length → j ∈ order) :
    ∃ w1 slots, processConcurrentSort w toSort (scheduleOf toSort.length order) =
        Joined.done (w1, slots) ∧
      (order.Nodup → (∀ k ∈ order, k < toSort.length) →
        slotWrites w1.trace = slotWrites w.trace ++ order) := by
  obtain ⟨st1, hr1, hI1, hid1, hp1, hw1, hu1⟩ :=
    run_launches toSort.length (concInit w toSort) (inv_init w toSort) (idle_init w toSort)
  obtain ⟨st2, hr2, hI2, hid2, hp2, hl2, hw2, _, ht2⟩ := run_order order st1 hI1 hid1
  have hpend1 : st1.pending = [] := by
    rw [hp1]
    simp [concInit]
  have hpend : st2.pending = [] := by rw [hp2, hpend1]
  have hwg : st2.wg = 0 := by
    rw [hI2.counter, List.countP_eq_zero]
    intro g hg
    obtain ⟨j, hj⟩ := List.mem_iff_getElem?.1 hg
    obtain ⟨_, harg, _⟩ := hI2.args j g hj
    have hjlt : j < toSort.length := by
      by_contra hge
      rw [List.getElem?_eq_none (not_lt.1 hge)] at harg
      cases harg
    have := (hw2 j g hj).1 (hcov j hjlt)
    simp [running, this]
  have hrun : run (scheduleOf toSort.length order) (concInit w toSort) = some st2 := by
    rw [scheduleOf, run_append, hr1]
    exact hr2
  refine ⟨st2.world, st2.sortedArrays, ?_, ?_⟩
  · simp only [processConcurrentSort, hrun, hpend, hwg, and_self, if_true]
  · intro hnd hlt
    have hlen : toSort.length ≤ st1.workers.length := by
      rw [hI1.launched]
      exact List.drop_eq_nil_iff.1 (hI1.pending ▸ hpend1)
    have hstart : ∀ k ∈ order, ∃ g, st1.workers[k]? = some g ∧ g.pc = 0 := by
      intro k hk
      have hklt : k < st1.workers.length := lt_of_lt_of_le (hlt k hk) hlen
      have hg : st1.workers[k]? = some st1.workers[k] := List.getElem?_eq_getElem hklt
      refine ⟨_, hg, hu1 ?_ k _ hg⟩
      intro j g hj
      simp [concInit] at hj
    have := ht2 hnd hstart
    rw [hw1] at this
    exact this

/-! ## The two sorting phases, summarised -/

/-- The concurrent sorting phase under any schedule: either the join has not
been reached, or it returns an output whose slot `j` holds a header written by
goroutine `j`, over a heap that extends the initial one. It never faults. -/
theorem processConcurrentSort_spec (w : World) (toSort : List Slice) (sched : List Action) :
    processConcurrentSort w toSort sched = Joined.blocked ∨
    ∃ w1 slots, processConcurrentSort w toSort sched = Joined.done (w1, slots) ∧
      (∃ ext, w1.heap = w.heap ++ ext) ∧ slots.length = toSort.length ∧
      (∀ (j : Nat) (s : Slice), toSort[j]? = some s →
        ∃ sa, slots[j]? = some (some sa) ∧ sa.len = s.len ∧
          ((∀ t ∈ toSort, validSlice w.heap t) →
            readSlice w1.heap sa = sortedInts (readSlice w.heap s))) := by
  obtain ⟨st, hr, hI⟩ := inv_run sched (concInit w toSort) (inv_init w toSort)
  by_cases hd : st.pending = [] ∧ st.wg = 0
  · right
    refine ⟨st.world, st.sortedArrays, ?_, hI.frame, hI.slots, ?_⟩
    · simp only [processConcurrentSort, hr, hd, and_self, if_true]
    · intro j s hj
      exact inv_joined_slots hI hd.1 hd.2 j s hj
  · left
    simp only [processConcurrentSort, hr, hd, if_false]

/-- The concurrent sorting phase on usable input, once joined: the JSON view of
its output is the map of sorting over the input arrays. -/
theorem processConcurrentSort_readOut (w : World) (toSort : List Slice) (sched : List Action)
    (hv : ∀ s ∈ toSort, validSlice w.heap s) (w1 : World) (slots : List (Option Slice))
    (hd : processConcurrentSort w toSort sched = Joined.done (w1, slots)) :
    readOut w1.heap slots = toSort.map (fun s => some (sortedInts (readSlice w.heap s))) := by
  rcases processConcurrentSort_spec w toSort sched with hb | ⟨w2, slots2, hd2, _, hlen, hs⟩
  · rw [hb] at hd; cases hd
  · rw [hd2] at hd
    injection hd with hd
    injection hd with h1 h2
    subst h1 h2
    refine readOut_eq w.heap w2.heap toSort slots2 hlen ?_
    intro j s hj
    obtain ⟨sa, h1, _, h3⟩ := hs j s hj
    exact ⟨sa, h1, h3 hv⟩

/-! ## The handlers on an accepted request -/

theorem map_readSlice_storeBatch (w : World) (batch : List (List Int)) :
    (storeBatch w batch).2.map (fun s => some (sortedInts (readSlice (storeBatch w batch).1.heap s))) =
      batch.map (fun a => some (sortedInts a)) := by
  have h := (storeBatch_read batch w).2
  unfold readBatch at h
  calc (storeBatch w batch).2.map
        (fun s => some (sortedInts (readSlice (storeBatch w batch).1.heap s)))
      = ((storeBatch w batch).2.map (readSlice (storeBatch w batch).1.heap)).map
          (fun a => some (sortedInts a)) := by rw [List.map_map]; rfl
    _ = batch.map (fun a => some (sortedInts a)) := by rw [h]

/-- An accepted request to `processSingle` is answered with status 200, the
element-wise sorted batch and the measured time. -/
theorem processSingle_post (unmarshal : List UInt8 → Option (List (List Int))) (elapsed : Int)
    (w : World) (r : Request) (body : List UInt8) (batch : List (List Int))
    (hm : r.Method = "POST") (hb : r.Body = some body) (hu : unmarshal body = some batch) :
    (processSingle unmarshal elapsed w r).2 =
      Reply.json (batch.map (fun a => some (sortedInts a))) elapsed := by
  obtain ⟨w2, slots, hrun, hout⟩ :=
    processSingleSort_readOut (storeBatch w batch).1 (storeBatch w batch).2 (storeBatch_read batch w).1
  rw [map_readSlice_storeBatch] at hout
  simp only [processSingle, hm, hb, hu, ne_eq, not_true_eq_false, if_false, hrun,
    sendJSONResponse, hout]

/-- An accepted request to `processConcurrent` is, under any schedule, either
still waiting at the join or answered exactly as `processSingle` answers it. -/
theorem processConcurrent_post (unmarshal : List UInt8 → Option (List (List Int))) (elapsed : Int)
    (sched : List Action) (w : World) (r : Request) (body : List UInt8) (batch : List (List Int))
    (hm : r.Method = "POST") (hb : r.Body = some body) (hu : unmarshal body = some batch) :
    (processConcurrent unmarshal elapsed sched w r).2 = Reply.blocked ∨
    (processConcurrent unmarshal elapsed sched w r).2 =
      Reply.json (batch.map (fun a => some (sortedInts a))) elapsed := by
  rcases hc : processConcurrentSort (storeBatch w batch).1 (storeBatch w batch).2 sched with
    _ | _ | ⟨w2, slots⟩
  · rcases processConcurrentSort_spec (storeBatch w batch).1 (storeBatch w batch).2 sched with
      h | ⟨_, _, h, _⟩
    · rw [h] at hc; cases hc
    · rw [h] at hc; cases hc
  · left
    simp only [processConcurrent, hm, hb, hu, ne_eq, not_true_eq_false, if_false, hc]
  · right
    have hout := processConcurrentSort_readOut _ _ sched (storeBatch_read batch w).1 w2 slots hc
    rw [map_readSlice_storeBatch] at hout
    simp only [processConcurrent, hm, hb, hu, ne_eq, not_true_eq_false, if_false, hc,
      sendJSONResponse, hout]

/-- An accepted request to `processConcurrent` is answered once all goroutines
are launched and completed, whatever the order of completion. -/
theorem processConcurrent_post_returns (unmarshal : List UInt8 → Option (List (List Int)))
    (elapsed : Int) (order : List Nat) (w : World) (r : Request) (body : List UInt8)
    (batch : List (List Int))
    (hm : r.Method = "POST") (hb : r.Body = some body) (hu : unmarshal body = some batch)
    (hcov : ∀ j, j < batch.length → j ∈ order) :
    (processConcurrent unmarshal elapsed (scheduleOf batch.length order) w r).2 =
      Reply.json (batch.map (fun a => some (sortedInts a))) elapsed := by
  have hlen := (storeBatch_spec batch w).2.1
  obtain ⟨w1, slots, hres, _⟩ := processConcurrentSort_returns (storeBatch w batch).1
    (storeBatch w batch).2 order (by rw [hlen]; exact hcov)
  rw [hlen] at hres
  rcases processConcurrent_post unmarshal elapsed (scheduleOf batch.length order) w r body batch
    hm hb hu with h | h
  · simp only [processConcurrent, hm, hb, hu, ne_eq, not_true_eq_false, if_false, hres] at h
    cases h
  · exact h

/-! ## Auxiliary facts for the properties below -/

theorem sorted_adjacent (l : List Int) (hs : l.Sorted (· ≤ ·)) :
    ∀ (k : Nat) (x y : Int), l[k]? = some x → l[k + 1]? = some y → x ≤ y := by
  induction l with
  | nil => intro k x y hx; simp at hx
  | cons a t ih =>
    intro k x y hx hy
    cases k with
    | zero =>
      simp at hx hy
      subst hx
      exact List.rel_of_sorted_cons hs y (List.mem_iff_getElem?.2 ⟨0, hy⟩)
    | succ k =>
      simp at hx hy
      exact ih hs.of_cons k x y hx hy

theorem getElem?_map_sorted (batch : List (List Int)) (i : Nat) (arr : List Int)
    (h : (batch.map (fun a => some (sortedInts a)))[i]? = some (some arr)) :
    ∃ a, batch[i]? = some a ∧ arr = sortedInts a := by
  rw [List.getElem?_map] at h
  cases hb : batch[i]? with
  | none => rw [hb] at h; cases h
  | some a =>
    rw [hb] at h
    simp at h
    exact ⟨a, rfl, h.symm⟩

theorem map_sorted_of_sorted (batch : List (List Int)) (hs : ∀ a ∈ batch, a.Sorted (· ≤ ·)) :
    batch.map (fun a => some (sortedInts a)) = batch.map some := by
  apply List.map_congr_left
  intro a ha
  rw [sortedInts_of_sorted a (hs a ha)]

/-- In the element-wise sorted batch, an input array that is already
non-decreasing sits unchanged at its own index. -/
theorem map_sorted_getElem? (batch : List (List Int)) (i : Nat) (a : List Int)
    (hi : batch[i]? = some a) (hs : a.Sorted (· ≤ ·)) :
    (batch.map (fun a => some (sortedInts a)))[i]? = some (some a) := by
  rw [List.getElem?_map, hi]
  simp [sortedInts_of_sorted a hs]

/-! ## Properties of the service -/

/-- C1: every batch accepted by `processSingle` is answered with a
`sorted_arrays` of exactly as many entries as the batch; entry `i` is the
ascending sort of input `i` (an ascending rearrangement of it), so the output is
the element-wise map of sorting over the input in input order, and the empty
batch yields the empty output. -/
theorem processSingle_positional_sort (unmarshal : List UInt8 → Option (List (List Int)))
    (elapsed : Int) (w : World) (r : Request) (body : List UInt8) (batch : List (List Int))
    (hm : r.Method = "POST") (hb : r.Body = some body) (hu : unmarshal body = some batch) :
    ∃ out, (processSingle unmarshal elapsed w r).2.sortedArrays = some out ∧
      out.length = batch.length ∧
      out = batch.map (fun a => some (sortedInts a)) ∧
      (∀ (i : Nat) (a : List Int), batch[i]? = some a →
        ∃ arr, out[i]? = some (some arr) ∧ arr.Sorted (· ≤ ·) ∧ arr.Perm a) ∧
      (batch = [] → out = []) := by
  have hrep := processSingle_post unmarshal elapsed w r body batch hm hb hu
  refine ⟨batch.map (fun a => some (sortedInts a)), by rw [hrep]; rfl, by simp, rfl, ?_, ?_⟩
  · intro i a hi
    exact ⟨sortedInts a, by simp [List.getElem?_map, hi], sortedInts_sorted a, sortedInts_perm a⟩
  · intro he
    rw [he]
    rfl

theorem processSingle_positional_sort_witness :
    (postRequest.Method = "POST" ∧ postRequest.Body = some [] ∧
      sampleUnmarshal [] = some [[3, 1, 2], [5, -1, 0]]) ∧
    ∃ out, (processSingle sampleUnmarshal 7 emptyWorld postRequest).2.sortedArrays = some out ∧
      out.length = [[3, 1, 2], [5, -1, (0 : Int)]].length ∧
      out = [[3, 1, 2], [5, -1, 0]].map (fun a => some (sortedInts a)) ∧
      (∀ (i : Nat) (a : List Int), [[3, 1, 2], [5, -1, (0 : Int)]][i]? = some a →
        ∃ arr, out[i]? = some (some arr) ∧ arr.Sorted (· ≤ ·) ∧ arr.Perm a) ∧
      ([[3, 1, 2], [5, -1, (0 : Int)]] = [] → out = []) :=
  ⟨⟨rfl, rfl, rfl⟩,
    processSingle_positional_sort sampleUnmarshal 7 emptyWorld postRequest []
      [[3, 1, 2], [5, -1, 0]] rfl rfl rfl⟩

/-- C2: the answer of `processSingle` to an accepted batch has one entry per
input array, none of them nil, and every array of `sorted_arrays` is
non-decreasing: each element is at most the element that follows it. -/
theorem processSingle_nondecreasing (unmarshal : List UInt8 → Option (List (List Int)))
    (elapsed : Int) (w : World) (r : Request) (body : List UInt8) (batch : List (List Int))
    (hm : r.Method = "POST") (hb : r.Body = some body) (hu : unmarshal body = some batch) :
    ∃ out, (processSingle unmarshal elapsed w r).2.sortedArrays = some out ∧
      out.length = batch.length ∧
      (∀ (i : Nat) (a : List Int), batch[i]? = some a →
        ∃ arr, out[i]? = some (some arr) ∧ arr.length = a.length ∧
          ∀ (k : Nat) (x y : Int), arr[k]? = some x → arr[k + 1]? = some y → x ≤ y) ∧
      (∀ (i : Nat) (arr : List Int), out[i]? = some (some arr) →
        ∀ (k : Nat) (x y : Int), arr[k]? = some x → arr[k + 1]? = some y → x ≤ y) := by
  have hrep := processSingle_post unmarshal elapsed w r body batch hm hb hu
  refine ⟨batch.map (fun a => some (sortedInts a)), by rw [hrep]; rfl, by simp, ?_, ?_⟩
  · intro i a hi
    exact ⟨sortedInts a, by simp [List.getElem?_map, hi], sortedInts_length a,
      sorted_adjacent _ (sortedInts_sorted a)⟩
  · intro i arr hi
    obtain ⟨a, _, harr⟩ := getElem?_map_sorted batch i arr hi
    rw [harr]
    exact sorted_adjacent _ (sortedInts_sorted a)

theorem processSingle_nondecreasing_witness :
    (postRequest.Method = "POST" ∧ postRequest.Body = some [] ∧
      sampleUnmarshal [] = some [[3, 1, 2], [5, -1, 0]]) ∧
    ∃ out, (processSingle sampleUnmarshal 7 emptyWorld postRequest).2.sortedArrays = some out ∧
      out.length = [[3, 1, 2], [5, -1, (0 : Int)]].length ∧
      (∀ (i : Nat) (a : List Int), [[3, 1, 2], [5, -1, (0 : Int)]][i]? = some a →
        ∃ arr, out[i]? = some (some arr) ∧ arr.length = a.length ∧
          ∀ (k : Nat) (x y : Int), arr[k]? = some x → arr[k + 1]? = some y → x ≤ y) ∧
      (∀ (i : Nat) (arr : List Int), out[i]? = some (some arr) →
        ∀ (k : Nat) (x y : Int), arr[k]? = some x → arr[k + 1]? = some y → x ≤ y) :=
  ⟨⟨rfl, rfl, rfl⟩,
    processSingle_nondecreasing sampleUnmarshal 7 emptyWorld postRequest []
      [[3, 1, 2], [5, -1, 0]] rfl rfl rfl⟩

/-- C3: in the answer of `processSingle` to an accepted batch, entry `i` of
`sorted_arrays` is a permutation of input `i`: same length, and every integer
occurs in it exactly as often as in the input. -/
theorem processSingle_permutation (unmarshal : List UInt8 → Option (List (List Int)))
    (elapsed : Int) (w : World) (r : Request) (body : List UInt8) (batch : List (List Int))
    (hm : r.Method = "POST") (hb : r.Body = some body) (hu : unmarshal body = some batch) :
    ∃ out, (processSingle unmarshal elapsed w r).2.sortedArrays = some out ∧
      ∀ (i : Nat) (a : List Int), batch[i]? = some a →
        ∃ arr, out[i]? = some (some arr) ∧ arr.Perm a ∧ arr.length = a.length ∧
          ∀ x : Int, arr.count x = a.count x := by
  have hrep := processSingle_post unmarshal elapsed w r body batch hm hb hu
  refine ⟨batch.map (fun a => some (sortedInts a)), by rw [hrep]; rfl, ?_⟩
  intro i a hi
  exact ⟨sortedInts a, by simp [List.getElem?_map, hi], sortedInts_perm a, sortedInts_length a,
    fun x => (sortedInts_perm a).count_eq x⟩

theorem processSingle_permutation_witness :
    (postRequest.Method = "POST" ∧ postRequest.Body = some [] ∧
      sampleUnmarshal [] = some [[3, 1, 2], [5, -1, 0]]) ∧
    ∃ out, (processSingle sampleUnmarshal 7 emptyWorld postRequest).2.sortedArrays = some out ∧
      ∀ (i : Nat) (a : List Int), [[3, 1, 2], [5, -1, (0 : Int)]][i]? = some a →
        ∃ arr, out[i]? = some (some arr) ∧ arr.Perm a ∧ arr.length = a.length ∧
          ∀ x : Int, arr.count x = a.count x :=
  ⟨⟨rfl, rfl, rfl⟩,
    processSingle_permutation sampleUnmarshal 7 emptyWorld postRequest []
      [[3, 1, 2], [5, -1, 0]] rfl rfl rfl⟩

/-- C4: for every accepted batch, `processSingle` answers with a `sorted_arrays`,
and `processConcurrent` answers with the identical `sorted_arrays` under every
schedule that reaches the join; the join is reached under every schedule that
launches all goroutines and completes them in an order covering all indices.
The two measured times are independent. -/
theorem processConcurrent_matches_processSingle
    (unmarshal : List UInt8 → Option (List (List Int))) (elapsedS elapsedC : Int)
    (w : World) (r : Request) (body : List UInt8) (batch : List (List Int))
    (hm : r.Method = "POST") (hb : r.Body = some body) (hu : unmarshal body = some batch) :
    (∃ out, (processSingle unmarshal elapsedS w r).2.sortedArrays = some out) ∧
    (∀ sched : List Action,
      (processConcurrent unmarshal elapsedC sched w r).2 ≠ Reply.blocked →
      (processConcurrent unmarshal elapsedC sched w r).2.sortedArrays =
        (processSingle unmarshal elapsedS w r).2.sortedArrays) ∧
    (∀ order : List Nat, (∀ j, j < batch.length → j ∈ order) →
      (processConcurrent unmarshal elapsedC (scheduleOf batch.length order) w r).2.sortedArrays =
        (processSingle unmarshal elapsedS w r).2.sortedArrays) := by
  have hS := processSingle_post unmarshal elapsedS w r body batch hm hb hu
  refine ⟨⟨_, by rw [hS]; rfl⟩, ?_, ?_⟩
  · intro sched hne
    rcases processConcurrent_post unmarshal elapsedC sched w r body batch hm hb hu with h | h
    · exact absurd h hne
    · rw [h, hS]
      rfl
  · intro order hcov
    rw [processConcurrent_post_returns unmarshal elapsedC order w r body batch hm hb hu hcov, hS]
    rfl

theorem processConcurrent_matches_processSingle_witness :
    (postRequest.Method = "POST" ∧ postRequest.Body = some [] ∧
      sampleUnmarshal [] = some [[3, 1, 2], [5, -1, 0]]) ∧
    (∃ out, (processSingle sampleUnmarshal 7 emptyWorld postRequest).2.sortedArrays = some out) ∧
    (∀ sched : List Action,
      (processConcurrent sampleUnmarshal 9 sched emptyWorld postRequest).2 ≠ Reply.blocked →
      (processConcurrent sampleUnmarshal 9 sched emptyWorld postRequest).2.sortedArrays =
        (processSingle sampleUnmarshal 7 emptyWorld postRequest).2.sortedArrays) ∧
    (∀ order : List Nat, (∀ j, j < [[3, 1, 2], [5, -1, (0 : Int)]].length → j ∈ order) →
      (processConcurrent sampleUnmarshal 9
          (scheduleOf [[3, 1, 2], [5, -1, (0 : Int)]].length order) emptyWorld
          postRequest).2.sortedArrays =
        (processSingle sampleUnmarshal 7 emptyWorld postRequest).2.sortedArrays) :=
  ⟨⟨rfl, rfl, rfl⟩,
    processConcurrent_matches_processSingle sampleUnmarshal 7 9 emptyWorld postRequest []
      [[3, 1, 2], [5, -1, 0]] rfl rfl rfl⟩

/-- C5: in the concurrent sorting phase on usable input, whatever the schedule,
the output read after the join is the same: slot `i` holds the sort of input `i`
and no slot is left nil. Every permutation of the indices occurs as the order of
the slot writes of a schedule that reaches the join. -/
theorem processConcurrent_order_independent (w : World) (toSort : List Slice)
    (hv : ∀ s ∈ toSort, validSlice w.heap s) :
    (∀ (sched : List Action) (w1 : World) (slots : List (Option Slice)),
      processConcurrentSort w toSort sched = Joined.done (w1, slots) →
      readOut w1.heap slots = toSort.map (fun s => some (sortedInts (readSlice w.heap s)))) ∧
    (∀ order : List Nat, order.Perm (List.range toSort.length) →
      ∃ w1 slots, processConcurrentSort w toSort (scheduleOf toSort.length order) =
          Joined.done (w1, slots) ∧
        slotWrites w1.trace = slotWrites w.trace ++ order) := by
  constructor
  · intro sched w1 slots hd
    exact processConcurrentSort_readOut w toSort sched hv w1 slots hd
  · intro order hp
    have hlt : ∀ k ∈ order, k < toSort.length := fun k hk => List.mem_range.1 (hp.mem_iff.1 hk)
    have hcov : ∀ j, j < toSort.length → j ∈ order :=
      fun j hj => hp.mem_iff.2 (List.mem_range.2 hj)
    have hnd : order.Nodup := hp.nodup_iff.2 (List.nodup_range _)
    obtain ⟨w1, slots, hd, ht⟩ := processConcurrentSort_returns w toSort order hcov
    exact ⟨w1, slots, hd, ht hnd hlt⟩

theorem processConcurrent_order_independent_witness :
    (∀ s ∈ sampleToSort, validSlice sampleWorld.heap s) ∧
    (processConcurrentSort sampleWorld sampleToSort interleaved =
      Joined.done (interleavedWorld, interleavedSlots)) ∧
    readOut interleavedWorld.heap interleavedSlots =
      sampleToSort.map (fun s => some (sortedInts (readSlice sampleWorld.heap s))) ∧
    ∃ w1 slots, processConcurrentSort sampleWorld sampleToSort
          (scheduleOf sampleToSort.length [1, 0]) = Joined.done (w1, slots) ∧
        slotWrites w1.trace = slotWrites sampleWorld.trace ++ [1, 0] :=
  ⟨by decide, by decide,
    (processConcurrent_order_independent sampleWorld sampleToSort (by decide)).1 interleaved
      interleavedWorld interleavedSlots (by decide),
    (processConcurrent_order_independent sampleWorld sampleToSort (by decide)).2 [1, 0]
      (by decide)⟩

/-- C6: neither sorting phase changes memory that existed before it ran: the
heap only grows by fresh backing arrays, so every pre-existing backing array and
every usable input array reads as before. For the concurrent phase this holds in
every state any schedule can reach. -/
theorem processors_preserve_input (w : World) (toSort : List Slice) :
    (∃ w1 slots, processSingleSort w toSort = some (w1, slots) ∧
      (∃ ext, w1.heap = w.heap ++ ext) ∧
      (∀ p, p < w.heap.length → load w1.heap p = load w.heap p) ∧
      (∀ s ∈ toSort, validSlice w.heap s → readSlice w1.heap s = readSlice w.heap s)) ∧
    (∀ (sched : List Action) (st : Conc), run sched (concInit w toSort) = some st →
      (∃ ext, st.world.heap = w.heap ++ ext) ∧
      (∀ p, p < w.heap.length → load st.world.heap p = load w.heap p) ∧
      (∀ s ∈ toSort, validSlice w.heap s → readSlice st.world.heap s = readSlice w.heap s)) := by
  constructor
  · obtain ⟨w1, slots, hrun, hheap, _, _⟩ := processSingleSort_spec w toSort
    refine ⟨w1, slots, hrun, ⟨_, hheap⟩, ?_, ?_⟩
    · intro p hp
      rw [hheap]
      exact load_append_left _ _ p hp
    · intro s _ hs
      rw [hheap]
      exact readSlice_append _ _ s hs
  · intro sched st hr
    obtain ⟨st1, hr1, hI⟩ := inv_run sched (concInit w toSort) (inv_init w toSort)
    rw [hr] at hr1
    injection hr1 with hr1
    subst hr1
    obtain ⟨ext, hext⟩ := hI.frame
    refine ⟨⟨ext, hext⟩, ?_, ?_⟩
    · intro p hp
      rw [hext]
      exact load_append_left _ _ p hp
    · intro s _ hs
      rw [hext]
      exact readSlice_append _ _ s hs

theorem processors_preserve_input_witness :
    (∃ w1 slots, processSingleSort sampleWorld sampleToSort = some (w1, slots) ∧
      (∃ ext, w1.heap = sampleWorld.heap ++ ext) ∧
      (∀ p, p < sampleWorld.heap.length → load w1.heap p = load sampleWorld.heap p) ∧
      (∀ s ∈ sampleToSort, validSlice sampleWorld.heap s →
        readSlice w1.heap s = readSlice sampleWorld.heap s)) ∧
    run interleaved (concInit sampleWorld sampleToSort) = some interleavedState ∧
    (∀ s ∈ sampleToSort, validSlice sampleWorld.heap s →
      readSlice interleavedState.world.heap s = readSlice sampleWorld.heap s) :=
  ⟨(processors_preserve_input sampleWorld sampleToSort).1, by decide,
    ((processors_preserve_input sampleWorld sampleToSort).2 interleaved interleavedState
      (by decide)).2.2⟩

/-- C7: both handlers classify a request in the same way and in the same order:
a method other than `POST` gives 405, otherwise an unreadable body gives 500,
otherwise an undecodable body gives 400, and on these three paths the world is
left as it was (nothing is allocated and no sort is performed); otherwise the
batch is sorted and the answer is the 200 reply with `sorted_arrays` and
`time_ns` (for `processConcurrent`, as soon as the join is reached, which it is
once all goroutines have run). -/
theorem handlers_classify (unmarshal : List UInt8 → Option (List (List Int)))
    (elapsedS elapsedC : Int) (sched : List Action) (w : World) (r : Request) :
    (r.Method ≠ "POST" →
      processSingle unmarshal elapsedS w r = (w, Reply.error "Method not allowed" 405) ∧
      processConcurrent unmarshal elapsedC sched w r =
        (w, Reply.error "Method not allowed" 405)) ∧
    (r.Method = "POST" → r.Body = none →
      processSingle unmarshal elapsedS w r = (w, Reply.error "Error reading request body" 500) ∧
      processConcurrent unmarshal elapsedC sched w r =
        (w, Reply.error "Error reading request body" 500)) ∧
    (∀ body, r.Method = "POST" → r.Body = some body → unmarshal body = none →
      processSingle unmarshal elapsedS w r = (w, Reply.error "Invalid input data" 400) ∧
      processConcurrent unmarshal elapsedC sched w r =
        (w, Reply.error "Invalid input data" 400)) ∧
    (∀ body batch, r.Method = "POST" → r.Body = some body → unmarshal body = some batch →
      (processSingle unmarshal elapsedS w r).2 =
        Reply.json (batch.map (fun a => some (sortedInts a))) elapsedS ∧
      (processSingle unmarshal elapsedS w r).2.status = some 200 ∧
      ((processConcurrent unmarshal elapsedC sched w r).2 = Reply.blocked ∨
        (processConcurrent unmarshal elapsedC sched w r).2 =
          Reply.json (batch.map (fun a => some (sortedInts a))) elapsedC) ∧
      (processConcurrent unmarshal elapsedC
          (scheduleOf batch.length (List.range batch.length)) w r).2 =
        Reply.json (batch.map (fun a => some (sortedInts a))) elapsedC) := by
  refine ⟨?_, ?_, ?_, ?_⟩
  · intro hm
    simp only [processSingle, processConcurrent, ne_eq, hm, not_false_eq_true, if_true, and_self]
  · intro hm hb
    simp only [processSingle, processConcurrent, ne_eq, hm, not_true_eq_false, if_false, hb,
      and_self]
  · intro body hm hb hu
    simp only [processSingle, processConcurrent, ne_eq, hm, not_true_eq_false, if_false, hb, hu,
      and_self]
  · intro body batch hm hb hu
    have hS := processSingle_post unmarshal elapsedS w r body batch hm hb hu
    refine ⟨hS, by rw [hS]; rfl,
      processConcurrent_post unmarshal elapsedC sched w r body batch hm hb hu,
      processConcurrent_post_returns unmarshal elapsedC (List.range batch.length) w r body batch
        hm hb hu (fun j hj => List.mem_range.2 hj)⟩

theorem handlers_classify_witness :
    (processSingle sampleUnmarshal 7 emptyWorld getRequest =
        (emptyWorld, Reply.error "Method not allowed" 405) ∧
      processConcurrent sampleUnmarshal 9 interleaved emptyWorld getRequest =
        (emptyWorld, Reply.error "Method not allowed" 405)) ∧
    (processSingle sampleUnmarshal 7 emptyWorld brokenRequest =
        (emptyWorld, Reply.error "Error reading request body" 500) ∧
      processConcurrent sampleUnmarshal 9 interleaved emptyWorld brokenRequest =
        (emptyWorld, Reply.error "Error reading request body" 500)) ∧
    (processSingle rejectUnmarshal 7 emptyWorld postRequest =
        (emptyWorld, Reply.error "Invalid input data" 400) ∧
      processConcurrent rejectUnmarshal 9 interleaved emptyWorld postRequest =
        (emptyWorld, Reply.error "Invalid input data" 400)) ∧
    ((processSingle sampleUnmarshal 7 emptyWorld postRequest).2 =
        Reply.json ([[3, 1, 2], [5, -1, 0]].map (fun a => some (sortedInts a))) 7 ∧
      (processSingle sampleUnmarshal 7 emptyWorld postRequest).2.status = some 200 ∧
      ((processConcurrent sampleUnmarshal 9 interleaved emptyWorld postRequest).2 =
          Reply.blocked ∨
        (processConcurrent sampleUnmarshal 9 interleaved emptyWorld postRequest).2 =
          Reply.json ([[3, 1, 2], [5, -1, 0]].map (fun a => some (sortedInts a))) 9) ∧
      (processConcurrent sampleUnmarshal 9
          (scheduleOf [[3, 1, 2], [5, -1, (0 : Int)]].length
            (List.range [[3, 1, 2], [5, -1, (0 : Int)]].length)) emptyWorld postRequest).2 =
        Reply.json ([[3, 1, 2], [5, -1, 0]].map (fun a => some (sortedInts a))) 9) :=
  ⟨(handlers_classify sampleUnmarshal 7 9 interleaved emptyWorld getRequest).1 (by decide),
    (handlers_classify sampleUnmarshal 7 9 interleaved emptyWorld brokenRequest).2.1 rfl rfl,
    (handlers_classify rejectUnmarshal 7 9 interleaved emptyWorld postRequest).2.2.1 [] rfl rfl
      rfl,
    (handlers_classify sampleUnmarshal 7 9 interleaved emptyWorld postRequest).2.2.2 []
      [[3, 1, 2], [5, -1, 0]] rfl rfl rfl⟩

/-- C8: idempotence. In the answer of each processor to an accepted batch,
every input array that is already non-decreasing comes back equal to itself at
its own index, whatever the other arrays of the batch are; `processConcurrent`
does so under every schedule that reaches the join, and reaches it under every
schedule that launches all goroutines and completes them in a covering order.
Consequently, feeding the `sorted_arrays` answered by either processor back in
as `to_sort` is answered with the same `sorted_arrays` by both processors. -/
theorem sorting_idempotent (unmarshal : List UInt8 → Option (List (List Int)))
    (elapsed : Int) (w : World) (r : Request) (body : List UInt8) (batch : List (List Int))
    (hm : r.Method = "POST") (hb : r.Body = some body) (hu : unmarshal body = some batch) :
    (∃ out, (processSingle unmarshal elapsed w r).2.sortedArrays = some out ∧
      out.length = batch.length ∧
      ∀ (i : Nat) (a : List Int), batch[i]? = some a → a.Sorted (· ≤ ·) →
        out[i]? = some (some a)) ∧
    (∀ sched : List Action, (processConcurrent unmarshal elapsed sched w r).2 ≠ Reply.blocked →
      ∃ out, (processConcurrent unmarshal elapsed sched w r).2.sortedArrays = some out ∧
        out.length = batch.length ∧
        ∀ (i : Nat) (a : List Int), batch[i]? = some a → a.Sorted (· ≤ ·) →
          out[i]? = some (some a)) ∧
    (∀ order : List Nat, (∀ j, j < batch.length → j ∈ order) →
      ∃ out, (processConcurrent unmarshal elapsed (scheduleOf batch.length order)
          w r).2.sortedArrays = some out ∧
        out.length = batch.length ∧
        ∀ (i : Nat) (a : List Int), batch[i]? = some a → a.Sorted (· ≤ ·) →
          out[i]? = some (some a)) ∧
    (∃ out : List (List Int),
      (processSingle unmarshal elapsed w r).2.sortedArrays = some (out.map some)) ∧
    (∀ (out : List (List Int)) (elapsed2 : Int) (w2 : World) (r2 : Request) (body2 : List UInt8),
      ((processSingle unmarshal elapsed w r).2.sortedArrays = some (out.map some) ∨
        ∃ sched : List Action,
          (processConcurrent unmarshal elapsed sched w r).2.sortedArrays =
            some (out.map some)) →
      r2.Method = "POST" → r2.Body = some body2 → unmarshal body2 = some out →
      (processSingle unmarshal elapsed2 w2 r2).2.sortedArrays = some (out.map some) ∧
      (∀ sched : List Action,
        (processConcurrent unmarshal elapsed2 sched w2 r2).2 ≠ Reply.blocked →
        (processConcurrent unmarshal elapsed2 sched w2 r2).2.sortedArrays =
          some (out.map some)) ∧
      (∀ order : List Nat, (∀ j, j < out.length → j ∈ order) →
        (processConcurrent unmarshal elapsed2 (scheduleOf out.length order)
          w2 r2).2.sortedArrays = some (out.map some))) := by
  have hS := processSingle_post unmarshal elapsed w r body batch hm hb hu
  have hC := fun sched => processConcurrent_post unmarshal elapsed sched w r body batch hm hb hu
  have hR := fun order hcov =>
    processConcurrent_post_returns unmarshal elapsed order w r body batch hm hb hu hcov
  have hfix : ∀ (i : Nat) (a : List Int), batch[i]? = some a → a.Sorted (· ≤ ·) →
      (batch.map (fun a => some (sortedInts a)))[i]? = some (some a) :=
    fun i a hi hs => map_sorted_getElem? batch i a hi hs
  refine ⟨⟨_, by rw [hS]; rfl, by simp, hfix⟩, ?_, ?_,
    ⟨batch.map sortedInts, by rw [hS, List.map_map]; rfl⟩, ?_⟩
  · intro sched hne
    rcases hC sched with h | h
    · exact absurd h hne
    · exact ⟨_, by rw [h]; rfl, by simp, hfix⟩
  · intro order hcov
    exact ⟨_, by rw [hR order hcov]; rfl, by simp, hfix⟩
  · intro out elapsed2 w2 r2 body2 hout hm2 hb2 hu2
    have hval : batch.map (fun a => some (sortedInts a)) = out.map some := by
      rcases hout with h | ⟨sched, h⟩
      · rw [hS] at h
        simpa [Reply.sortedArrays] using h
      · rcases hC sched with hb0 | hj
        · rw [hb0] at h
          cases h
        · rw [hj] at h
          simpa [Reply.sortedArrays] using h
    have hmm : (batch.map sortedInts).map some = out.map some := by
      rw [List.map_map]; exact hval
    have hout2 : batch.map sortedInts = out :=
      List.map_injective_iff.2 (Option.some_injective _) hmm
    have hsorted : ∀ a ∈ out, a.Sorted (· ≤ ·) := by
      intro a ha
      rw [← hout2] at ha
      obtain ⟨x, _, hx⟩ := List.mem_map.1 ha
      rw [← hx]
      exact sortedInts_sorted x
    have hS2 := processSingle_post unmarshal elapsed2 w2 r2 body2 out hm2 hb2 hu2
    rw [map_sorted_of_sorted out hsorted] at hS2
    refine ⟨by rw [hS2]; rfl, ?_, ?_⟩
    · intro sched hne
      rcases processConcurrent_post unmarshal elapsed2 sched w2 r2 body2 out hm2 hb2 hu2 with
        h | h
      · exact absurd h hne
      · rw [map_sorted_of_sorted out hsorted] at h
        rw [h]; rfl
    · intro order hcov
      have h := processConcurrent_post_returns unmarshal elapsed2 order w2 r2 body2 out
        hm2 hb2 hu2 hcov
      rw [map_sorted_of_sorted out hsorted] at h
      rw [h]; rfl

theorem sorting_idempotent_witness :
    (postRequest.Method = "POST" ∧ postRequest.Body = some [] ∧
      mixedUnmarshal [] = some [[1, 2], [2, 1]] ∧
      replayUnmarshal [] = some [[3, 1, 2], [5, -1, 0]] ∧
      postRequest1.Method = "POST" ∧ postRequest1.Body = some [1] ∧
      replayUnmarshal [1] = some [[1, 2, 3], [-1, 0, 5]]) ∧
    (∃ out, (processSingle mixedUnmarshal 7 emptyWorld postRequest).2.sortedArrays = some out ∧
      out[0]? = some (some [1, 2])) ∧
    (∃ out, (processConcurrent mixedUnmarshal 7 interleaved emptyWorld
        postRequest).2.sortedArrays = some out ∧ out[0]? = some (some [1, 2])) ∧
    (∃ out, (processConcurrent mixedUnmarshal 7 (scheduleOf 2 [1, 0]) emptyWorld
        postRequest).2.sortedArrays = some out ∧ out[0]? = some (some [1, 2])) ∧
    ((processSingle replayUnmarshal 7 emptyWorld postRequest).2.sortedArrays =
        some ([[1, 2, 3], [-1, 0, 5]].map some) ∧
      (processSingle replayUnmarshal 8 sampleWorld postRequest1).2.sortedArrays =
        some ([[1, 2, 3], [-1, 0, 5]].map some) ∧
      (∀ sched : List Action,
        (processConcurrent replayUnmarshal 8 sched sampleWorld postRequest1).2 ≠ Reply.blocked →
        (processConcurrent replayUnmarshal 8 sched sampleWorld postRequest1).2.sortedArrays =
          some ([[1, 2, 3], [-1, 0, 5]].map some)) ∧
      (processConcurrent replayUnmarshal 8 (scheduleOf 2 [1, 0]) sampleWorld
        postRequest1).2.sortedArrays = some ([[1, 2, 3], [-1, 0, 5]].map some)) :=
  ⟨⟨rfl, rfl, rfl, rfl, rfl, rfl, rfl⟩,
    Exists.elim
      (sorting_idempotent mixedUnmarshal 7 emptyWorld postRequest [] [[1, 2], [2, 1]]
        rfl rfl rfl).1
      (fun out h => ⟨out, h.1, h.2.2 0 [1, 2] rfl (by decide)⟩),
    Exists.elim
      ((sorting_idempotent mixedUnmarshal 7 emptyWorld postRequest [] [[1, 2], [2, 1]]
        rfl rfl rfl).2.1 interleaved (by decide))
      (fun out h => ⟨out, h.1, h.2.2 0 [1, 2] rfl (by decide)⟩),
    Exists.elim
      ((sorting_idempotent mixedUnmarshal 7 emptyWorld postRequest [] [[1, 2], [2, 1]]
        rfl rfl rfl).2.2.1 [1, 0] (by decide))
      (fun out h => ⟨out, h.1, h.2.2 0 [1, 2] rfl (by decide)⟩),
    by decide,
    (fun h => ⟨h.1, h.2.1, h.2.2 [1, 0] (by decide)⟩)
      ((sorting_idempotent replayUnmarshal 7 emptyWorld postRequest [] [[3, 1, 2], [5, -1, 0]]
        rfl rfl rfl).2.2.2.2 [[1, 2, 3], [-1, 0, 5]] 8 sampleWorld postRequest1 [1]
        (Or.inl (by decide)) rfl rfl rfl)⟩

/-- C9: the sorting core cannot fault, whatever the memory and the batch
(empty batch and empty arrays included): every slot write falls inside the
pre-allocated output of the length of the batch, so `processSingle` always
returns and no schedule of `processConcurrent` faults; and an input array of
length 0 yields the empty array, not a nil slot, at the same index. -/
theorem sorting_core_never_faults (w : World) (toSort : List Slice) :
    (∃ w1 slots, processSingleSort w toSort = some (w1, slots) ∧
      slots.length = toSort.length ∧
      ∀ (i : Nat) (s : Slice), toSort[i]? = some s → s.len = 0 →
        (readOut w1.heap slots)[i]? = some (some [])) ∧
    (∀ sched : List Action, processConcurrentSort w toSort sched ≠ Joined.fault) ∧
    (∀ (sched : List Action) (w1 : World) (slots : List (Option Slice)),
      processConcurrentSort w toSort sched = Joined.done (w1, slots) →
      slots.length = toSort.length ∧
      ∀ (i : Nat) (s : Slice), toSort[i]? = some s → s.len = 0 →
        (readOut w1.heap slots)[i]? = some (some [])) := by
  refine ⟨?_, ?_, ?_⟩
  · obtain ⟨w1, slots, hrun, _, hlen, hnew⟩ := processSingleSort_spec w toSort
    refine ⟨w1, slots, hrun, hlen, ?_⟩
    intro i s hi h0
    simp [readOut, List.getElem?_map, hnew i s hi, readSlice, h0]
  · intro sched hf
    rcases processConcurrentSort_spec w toSort sched with h | ⟨_, _, h, _⟩
    · rw [h] at hf; cases hf
    · rw [h] at hf; cases hf
  · intro sched w1 slots hd
    rcases processConcurrentSort_spec w toSort sched with h | ⟨w2, slots2, h, _, hlen, hs⟩
    · rw [h] at hd; cases hd
    · rw [h] at hd
      injection hd with hd
      injection hd with h1 h2
      subst h1 h2
      refine ⟨hlen, ?_⟩
      intro i s hi h0
      obtain ⟨sa, hsa, hsl, _⟩ := hs i s hi
      simp [readOut, List.getElem?_map, hsa, readSlice, hsl, h0]

theorem sorting_core_never_faults_witness :
    (∃ w1 slots, processSingleSort emptyArrayWorld emptyArrayToSort = some (w1, slots) ∧
      slots.length = emptyArrayToSort.length ∧
      ∀ (i : Nat) (s : Slice), emptyArrayToSort[i]? = some s → s.len = 0 →
        (readOut w1.heap slots)[i]? = some (some [])) ∧
    (processConcurrentSort emptyArrayWorld emptyArrayToSort interleaved =
      Joined.done
        ({ heap := [[], [2, 1], [], [1, 2]],
           trace := [Event.sortCall { ptr := 3, len := 2 }, Event.sortCall { ptr := 2, len := 0 },
                     Event.slotWrite 1, Event.slotWrite 0] },
         [some { ptr := 2, len := 0 }, some { ptr := 3, len := 2 }])) ∧
    (readOut [[], [2, 1], [], [1, 2]]
        [some { ptr := 2, len := 0 }, some { ptr := 3, len := 2 }])[0]? = some (some []) :=
  ⟨(sorting_core_never_faults emptyArrayWorld emptyArrayToSort).1, by decide,
    ((sorting_core_never_faults emptyArrayWorld emptyArrayToSort).2.2 interleaved
      { heap := [[], [2, 1], [], [1, 2]],
        trace := [Event.sortCall { ptr := 3, len := 2 }, Event.sortCall { ptr := 2, len := 0 },
                  Event.slotWrite 1, Event.slotWrite 0] }
      [some { ptr := 2, len := 0 }, some { ptr := 3, len := 2 }] (by decide)).2 0
      { ptr := 0, len := 0 } rfl rfl⟩

/-- C10: for the batch `[[3,1,2],[5,-1,0]]` both handlers answer with
`sorted_arrays = [[1,2,3],[-1,0,5]]`: `processSingle` always, `processConcurrent`
under every schedule that reaches the join, in particular under both orders of
completion of its two goroutines. Negative integers come before zero. -/
theorem concrete_scenario (unmarshal : List UInt8 → Option (List (List Int)))
    (elapsed : Int) (w : World) (r : Request) (body : List UInt8)
    (hm : r.Method = "POST") (hb : r.Body = some body)
    (hu : unmarshal body = some [[3, 1, 2], [5, -1, 0]]) :
    (processSingle unmarshal elapsed w r).2.sortedArrays =
      some [some [1, 2, 3], some [-1, 0, 5]] ∧
    (∀ sched : List Action, (processConcurrent unmarshal elapsed sched w r).2 ≠ Reply.blocked →
      (processConcurrent unmarshal elapsed sched w r).2.sortedArrays =
        some [some [1, 2, 3], some [-1, 0, 5]]) ∧
    (processConcurrent unmarshal elapsed (scheduleOf 2 [0, 1]) w r).2.sortedArrays =
      some [some [1, 2, 3], some [-1, 0, 5]] ∧
    (processConcurrent unmarshal elapsed (scheduleOf 2 [1, 0]) w r).2.sortedArrays =
      some [some [1, 2, 3], some [-1, 0, 5]] := by
  have hval : [[3, 1, 2], [5, -1, (0 : Int)]].map (fun a => some (sortedInts a)) =
      [some [1, 2, 3], some [-1, 0, 5]] := by decide
  have hS := processSingle_post unmarshal elapsed w r body _ hm hb hu
  have hC := fun sched => processConcurrent_post unmarshal elapsed sched w r body _ hm hb hu
  have hR := fun order hcov =>
    processConcurrent_post_returns unmarshal elapsed order w r body _ hm hb hu hcov
  rw [hval] at hS
  refine ⟨by rw [hS]; rfl, ?_, ?_, ?_⟩
  · intro sched hne
    rcases hC sched with h | h
    · exact absurd h hne
    · rw [hval] at h
      rw [h]; rfl
  · have := hR [0, 1] (by decide)
    rw [hval] at this
    show (processConcurrent unmarshal elapsed (scheduleOf 2 [0, 1]) w r).2.sortedArrays = _
    rw [show (2 : Nat) = [[3, 1, 2], [5, -1, (0 : Int)]].length from rfl, this]; rfl
  · have := hR [1, 0] (by decide)
    rw [hval] at this
    rw [show (2 : Nat) = [[3, 1, 2], [5, -1, (0 : Int)]].length from rfl, this]; rfl

theorem concrete_scenario_witness :
    (postRequest.Method = "POST" ∧ postRequest.Body = some [] ∧
      sampleUnmarshal [] = some [[3, 1, 2], [5, -1, 0]]) ∧
    (processSingle sampleUnmarshal 7 emptyWorld postRequest).2.sortedArrays =
      some [some [1, 2, 3], some [-1, 0, 5]] ∧
    (∀ sched : List Action,
      (processConcurrent sampleUnmarshal 7 sched emptyWorld postRequest).2 ≠ Reply.blocked →
      (processConcurrent sampleUnmarshal 7 sched emptyWorld postRequest).2.sortedArrays =
        some [some [1, 2, 3], some [-1, 0, 5]]) ∧
    (processConcurrent sampleUnmarshal 7 (scheduleOf 2 [0, 1]) emptyWorld
        postRequest).2.sortedArrays = some [some [1, 2, 3], some [-1, 0, 5]] ∧
    (processConcurrent sampleUnmarshal 7 (scheduleOf 2 [1, 0]) emptyWorld
        postRequest).2.sortedArrays = some [some [1, 2, 3], some [-1, 0, 5]] :=
  ⟨⟨rfl, rfl, rfl⟩, concrete_scenario sampleUnmarshal 7 emptyWorld postRequest [] rfl rfl rfl⟩

end MapUp
